import Mathlib

/-!
Verification development for the macro-expansion core and the type-shape
validator of a compile-time s-expression transformer.

The definitions below are a shallow embedding of `src/macro_expander.rs`,
`src/ast.rs` and `src/validator.rs`:
* `LispExpr` mirrors the `LispExpr` enum.  The numeric payload is modeled
  as `Int` (the source uses `f64`; no statement here computes with the
  payload, only structural equality is used).  The `Macro` variant is named
  `MacroDef` and the `String` variant `Str` to avoid clashes with Lean
  names; `UndefinedMacro` is named `UndefinedMacroName` for the same reason.
* `HashMap` values of the source are modeled as association lists in which
  a later insert is a `cons` that shadows earlier entries; `alLookup`
  returns the most recent insertion, matching `HashMap` lookup semantics.
  Only lookups, key-membership tests and inserts are performed on these
  maps in the source, so the model is observation-faithful.
* The mutually recursive expansion routines of the source are not
  structurally terminating (the depth counter, a runtime check, is what
  bounds them), so they are written with an explicit `fuel` parameter
  that bounds the recursion depth; `none` means the fuel was exhausted.
  All theorems either hold for every fuel or state the fuel they need.
-/

set_option maxHeartbeats 1600000

namespace RustyLisp

/-- The term language, from `src/ast.rs` (`enum LispExpr`). -/
inductive LispExpr : Type where
  | Number : Int → LispExpr
  | Symbol : String → LispExpr
  | Str : String → LispExpr
  | List : List LispExpr → LispExpr
  | Boolean : Bool → LispExpr
  | Nil : LispExpr
  | MacroDef : String → List String → LispExpr → LispExpr
  | MacroCall : String → List LispExpr → LispExpr
  | Quote : LispExpr → LispExpr
  | Quasiquote : LispExpr → LispExpr
  | Unquote : LispExpr → LispExpr
  | Splice : LispExpr → LispExpr
  | Gensym : String → LispExpr

/-- A registered macro definition (`struct MacroDefinition`). -/
structure MacroDefinition : Type where
  name : String
  parameters : List String
  body : LispExpr

/-- Expansion errors (`enum MacroError`).  `ExpansionError` carries a
message and an optional context string, as in the source. -/
inductive MacroError : Type where
  | UndefinedMacroName : String → MacroError
  | ParameterCountMismatch : String → Nat → Nat → MacroError
  | MaxDepthExceeded : Nat → String → MacroError
  | ExpansionError : String → Option String → MacroError
  | MalformedDefinition : String → String → MacroError
  | InvalidPattern : String → String → MacroError
deriving DecidableEq, Repr

/-- Expander state (`struct MacroExpander`): the registry, the depth
counter, the configured bound and the gensym counter. -/
structure MacroExpander : Type where
  macros : List (String × MacroDefinition)
  expansionDepth : Nat
  maxDepth : Nat
  gensymCounter : Nat

/-- `MacroExpander::new()`: empty registry, depth 0, bound 100, counter 0. -/
def MacroExpander.new : MacroExpander :=
  { macros := [], expansionDepth := 0, maxDepth := 100, gensymCounter := 0 }

/-- `MacroExpander::with_max_depth(max_depth)`. -/
def MacroExpander.withMaxDepth (maxDepth : Nat) : MacroExpander :=
  { macros := [], expansionDepth := 0, maxDepth := maxDepth, gensymCounter := 0 }

/-- Association-list lookup: the most recent insertion wins, matching
`HashMap::get`. -/
def alLookup {α : Type} (k : String) : List (String × α) → Option α
  | [] => none
  | (k₂, v) :: rest => if k = k₂ then some v else alLookup k rest

/-- `HashMap::contains_key`. -/
def alContains {α : Type} (k : String) (m : List (String × α)) : Bool :=
  (alLookup k m).isSome

/-- `HashMap::insert` modeled as a shadowing cons. -/
def alInsert {α : Type} (k : String) (v : α) (m : List (String × α)) :
    List (String × α) :=
  (k, v) :: m

/-- `HashMap::keys` (used only for membership tests in the source). -/
def alKeys {α : Type} (m : List (String × α)) : List String :=
  m.map Prod.fst

/-- `MacroExpander::gensym`: bump the counter and mint `prefix#gN`. -/
def gensym (st : MacroExpander) (pre : String) : String × MacroExpander :=
  let c := st.gensymCounter + 1
  (pre ++ "#g" ++ toString c, { st with gensymCounter := c })

/-- `MacroExpander::define_macro`. -/
def defineMacroIn (st : MacroExpander) (name : String)
    (parameters : List String) (body : LispExpr) : MacroExpander :=
  { st with
    macros := alInsert name ⟨name, parameters, body⟩ st.macros }

/-- `Iterator::position`: index of the first occurrence of `target`. -/
def listPosition (target : String) : List String → Option Nat
  | [] => none
  | p :: rest =>
    if p = target then some 0 else (listPosition target rest).map (· + 1)

/-- `MacroExpander::match_parameters`: bind parameters to arguments,
with `&rest` handling, preserving the exact order of the source's
checks (missing rest name, then argument count, then the
parameters-after-rest check, which in the source runs only after the
bindings are built). -/
def matchParameters (macroName : String) (parameters : List String)
    (args : List LispExpr) :
    Except MacroError (List (String × LispExpr)) :=
  match listPosition "&rest" parameters with
  | some restIdx =>
    if restIdx + 1 ≥ parameters.length then
      .error (.InvalidPattern "&rest" "&rest must be followed by a parameter name")
    else
      let restParamName := parameters.getD (restIdx + 1) ""
      let required := parameters.take restIdx
      if args.length < required.length then
        .error (.ParameterCountMismatch macroName required.length args.length)
      else
        let bindings₁ := (required.zip args).foldl
          (fun m p => alInsert p.1 p.2 m) []
        let restArgs := args.drop required.length
        let bindings₂ := alInsert restParamName (.List restArgs) bindings₁
        if restIdx + 2 < parameters.length then
          .error (.InvalidPattern ("&rest " ++ restParamName)
            "Parameters cannot appear after &rest parameter")
        else
          .ok bindings₂
  | none =>
    if parameters.length ≠ args.length then
      .error (.ParameterCountMismatch macroName parameters.length args.length)
    else
      .ok ((parameters.zip args).foldl (fun m p => alInsert p.1 p.2 m) [])

/-- Built-in forms that hygiene must not rename (`BUILTIN_FORMS`). -/
def builtinForms : List String :=
  ["let", "if", "define", "lambda", "quote", "quasiquote", "unquote",
   "unquote-splicing",
   "+", "-", "*", "/", "=", "<", ">", "<=", ">=",
   "and", "or", "not", "list", "car", "cdr", "cons",
   "set!", "begin", "progn"]

mutual

/-- `collect_non_parameter_symbols`: pre-order collection of the `Symbol`
names of a body that are not parameters, skipping `Quote` subtrees and
`Unquote`/`Splice` payloads, and switching to the quasiquote-mode
collector under `Quasiquote`. -/
def collectNonParameterSymbols (e : LispExpr) (parameters : List String) :
    List String :=
  match e with
  | .Symbol name => if parameters.contains name then [] else [name]
  | .List elements => collectNPSList elements parameters
  | .Quote _ => []
  | .Quasiquote inner => collectSymbolsInQuasiquote inner parameters
  | .Unquote _ => []
  | .Splice _ => []
  | .MacroDef _ _ body => collectNonParameterSymbols body parameters
  | _ => []

/-- List traversal for `collect_non_parameter_symbols`. -/
def collectNPSList (es : List LispExpr) (parameters : List String) :
    List String :=
  match es with
  | [] => []
  | e :: rest =>
    collectNonParameterSymbols e parameters ++ collectNPSList rest parameters

/-- `collect_symbols_in_quasiquote`: inside a quasiquote template collect
symbols that are not parameters, skipping `Unquote`/`Splice` payloads
(and anything else that is not a symbol or a list). -/
def collectSymbolsInQuasiquote (e : LispExpr) (parameters : List String) :
    List String :=
  match e with
  | .Unquote _ => []
  | .Splice _ => []
  | .Symbol name => if parameters.contains name then [] else [name]
  | .List elements => collectSIQList elements parameters
  | _ => []

/-- List traversal for `collect_symbols_in_quasiquote`. -/
def collectSIQList (es : List LispExpr) (parameters : List String) :
    List String :=
  match es with
  | [] => []
  | e :: rest =>
    collectSymbolsInQuasiquote e parameters ++ collectSIQList rest parameters

end

/-- `Vec::dedup`: remove consecutive duplicates. -/
def dedupAdjacent : List String → List String
  | [] => []
  | [a] => [a]
  | a :: b :: rest =>
    if a = b then dedupAdjacent (b :: rest)
    else a :: dedupAdjacent (b :: rest)

/-- `collect_introduced_symbols`: collect the body's non-parameter
symbols, drop built-in forms and registered macro names, then sort and
deduplicate — in exactly the order the source performs these steps. -/
def collectIntroducedSymbols (st : MacroExpander) (e : LispExpr)
    (parameters : List String) : List String :=
  let symbols := collectNonParameterSymbols e parameters
  let symbols := symbols.filter (fun s => ¬ builtinForms.contains s)
  let symbols := symbols.filter (fun s => ¬ alContains s st.macros)
  dedupAdjacent (symbols.insertionSort (fun a b => a ≤ b))

/-- The hygiene-map construction loop of `expand_macro_call`: mint a
gensym for each introduced symbol, in list order. -/
def buildHygieneMap (st : MacroExpander) :
    List String → List (String × String) × MacroExpander
  | [] => ([], st)
  | s :: rest =>
    let (renamed, st') := gensym st s
    let (m, st'') := buildHygieneMap st' rest
    ((s, renamed) :: m, st'')

mutual

/-- `apply_hygiene_renaming`: replace each symbol in the hygiene map by
the corresponding `Gensym`, leaving `Quote` subtrees alone and switching
to the quasiquote-mode renamer under `Quasiquote`. -/
def applyHygieneRenaming (e : LispExpr)
    (hygieneMap : List (String × String)) : LispExpr :=
  match e with
  | .Symbol name =>
    match alLookup name hygieneMap with
    | some renamed => .Gensym renamed
    | none => .Symbol name
  | .List elements => .List (renameList elements hygieneMap)
  | .Quote inner => .Quote inner
  | .Quasiquote inner =>
    .Quasiquote (applyHygieneRenamingInQuasiquote inner hygieneMap)
  | .Unquote inner => .Unquote (applyHygieneRenaming inner hygieneMap)
  | .Splice inner => .Splice (applyHygieneRenaming inner hygieneMap)
  | .MacroDef name params body =>
    .MacroDef name params (applyHygieneRenaming body hygieneMap)
  | other => other

/-- List traversal for `apply_hygiene_renaming`. -/
def renameList (es : List LispExpr)
    (hygieneMap : List (String × String)) : List LispExpr :=
  match es with
  | [] => []
  | e :: rest =>
    applyHygieneRenaming e hygieneMap :: renameList rest hygieneMap

/-- `apply_hygiene_renaming_in_quasiquote`: inside a template, leave
`Unquote`/`Splice` payloads alone, rename symbols, recurse into lists,
and leave everything else (including nested `Quote`/`Quasiquote` and
embedded definitions) unchanged. -/
def applyHygieneRenamingInQuasiquote (e : LispExpr)
    (hygieneMap : List (String × String)) : LispExpr :=
  match e with
  | .Unquote inner => .Unquote inner
  | .Splice inner => .Splice inner
  | .Symbol name =>
    match alLookup name hygieneMap with
    | some renamed => .Gensym renamed
    | none => .Symbol name
  | .List elements => .List (renameQQList elements hygieneMap)
  | other => other

/-- List traversal for `apply_hygiene_renaming_in_quasiquote`. -/
def renameQQList (es : List LispExpr)
    (hygieneMap : List (String × String)) : List LispExpr :=
  match es with
  | [] => []
  | e :: rest =>
    applyHygieneRenamingInQuasiquote e hygieneMap ::
      renameQQList rest hygieneMap

end

/-- Comma-separated join, as in `Debug` output for sequences. -/
def joinComma : List String → String
  | [] => ""
  | [a] => a
  | a :: rest => a ++ ", " ++ joinComma rest

/-- `Debug` rendering of a string payload (escape sequences inside the
payload are not modeled). -/
def strRepr (s : String) : String := "\"" ++ s ++ "\""

mutual

/-- The derived `Debug` rendering of a term, used by the source to build
error contexts via `format!("{:?}", …)`.  Numeric payloads render with a
`.0` suffix to match the source's `f64` payloads on integral values. -/
def reprE : LispExpr → String
  | .Number n => "Number(" ++ toString n ++ ".0)"
  | .Symbol s => "Symbol(" ++ strRepr s ++ ")"
  | .Str s => "String(" ++ strRepr s ++ ")"
  | .List es => "List([" ++ reprEList es ++ "])"
  | .Boolean b => "Bool(" ++ (if b then "true" else "false") ++ ")"
  | .Nil => "Nil"
  | .MacroDef name params body =>
    "Macro \x7b name: " ++ strRepr name ++ ", parameters: [" ++
      joinComma (params.map strRepr) ++ "], body: " ++ reprE body ++ " \x7d"
  | .MacroCall name args =>
    "MacroCall \x7b name: " ++ strRepr name ++ ", args: [" ++
      reprEList args ++ "] \x7d"
  | .Quote e => "Quote(" ++ reprE e ++ ")"
  | .Quasiquote e => "Quasiquote(" ++ reprE e ++ ")"
  | .Unquote e => "Unquote(" ++ reprE e ++ ")"
  | .Splice e => "Splice(" ++ reprE e ++ ")"
  | .Gensym s => "Gensym(" ++ strRepr s ++ ")"

/-- `Debug` rendering of a term list. -/
def reprEList : List LispExpr → String
  | [] => ""
  | [e] => reprE e
  | e :: rest => reprE e ++ ", " ++ reprEList rest

end

mutual

/-- `substitute_parameters`, fueled: replace parameter symbols by their
bound arguments, leave `Quote` alone, and on `Quasiquote` substitute the
template and then flatten it with `expand_quasiquote_with_substitution`
(the quasiquote wrapper itself is consumed, as in the source). -/
def substituteParameters : Nat → List (String × LispExpr) → LispExpr →
    Option (Except MacroError LispExpr)
  | 0, _, _ => none
  | n + 1, bindings, e =>
    match e with
    | .Symbol name =>
      match alLookup name bindings with
      | some replacement => some (.ok replacement)
      | none => some (.ok (.Symbol name))
    | .List elements =>
      (substList n bindings elements).map (fun r => r.map .List)
    | .Quote inner => some (.ok (.Quote inner))
    | .Quasiquote inner =>
      match substituteParameters n bindings inner with
      | none => none
      | some (.error err) => some (.error err)
      | some (.ok substituted) =>
        expandQQWithSubstitution n bindings substituted
    | .Unquote inner =>
      match substituteParameters n bindings inner with
      | none => none
      | some (.error err) => some (.error err)
      | some (.ok s) => some (.ok (.Unquote s))
    | .Splice inner =>
      match substituteParameters n bindings inner with
      | none => none
      | some (.error err) => some (.error err)
      | some (.ok s) => some (.ok (.Splice s))
    | other => some (.ok other)

/-- List traversal of `substitute_parameters`, first error wins. -/
def substList : Nat → List (String × LispExpr) → List LispExpr →
    Option (Except MacroError (List LispExpr))
  | 0, _, _ => none
  | _ + 1, _, [] => some (.ok [])
  | n + 1, bindings, e :: rest =>
    match substituteParameters n bindings e with
    | none => none
    | some (.error err) => some (.error err)
    | some (.ok x) =>
      match substList n bindings rest with
      | none => none
      | some (.error err) => some (.error err)
      | some (.ok xs) => some (.ok (x :: xs))

/-- `expand_quasiquote_with_substitution`, fueled: substitute `Unquote`
payloads in place and splice `Splice` payloads (which must substitute to
lists) into the surrounding list. -/
def expandQQWithSubstitution : Nat → List (String × LispExpr) → LispExpr →
    Option (Except MacroError LispExpr)
  | 0, _, _ => none
  | n + 1, bindings, e =>
    match e with
    | .Unquote inner => substituteParameters n bindings inner
    | .List elements =>
      (qqSubstList n bindings elements).map (fun r => r.map .List)
    | other => some (.ok other)

/-- Element loop of `expand_quasiquote_with_substitution`: a `Splice`
element is substituted and its (list) elements are interpolated, any
other element is processed in template mode and appended singly. -/
def qqSubstList : Nat → List (String × LispExpr) → List LispExpr →
    Option (Except MacroError (List LispExpr))
  | 0, _, _ => none
  | _ + 1, _, [] => some (.ok [])
  | n + 1, bindings, .Splice spliceExpr :: rest =>
    match substituteParameters n bindings spliceExpr with
    | none => none
    | some (.error err) => some (.error err)
    | some (.ok substituted) =>
      match substituted with
      | .List spliceElements =>
        match qqSubstList n bindings rest with
        | none => none
        | some (.error err) => some (.error err)
        | some (.ok ys) => some (.ok (spliceElements ++ ys))
      | other =>
        some (.error (.ExpansionError
          "Splice (unquote-splicing) must expand to a list"
          (some ("Got: " ++ reprE other))))
  | n + 1, bindings, e :: rest =>
    match expandQQWithSubstitution n bindings e with
    | none => none
    | some (.error err) => some (.error err)
    | some (.ok x) =>
      match qqSubstList n bindings rest with
      | none => none
      | some (.error err) => some (.error err)
      | some (.ok ys) => some (.ok (x :: ys))

end

mutual

/-- `expand_expression`, fueled.  The state (registry, depth counter,
gensym counter) is threaded and returned on the error path as well,
because the source mutates `&mut self` and errors leave those mutations
in place. -/
def expandExpression : Nat → MacroExpander → LispExpr →
    Option ((Except MacroError LispExpr) × MacroExpander)
  | 0, _, _ => none
  | n + 1, st, e =>
    match e with
    | .MacroDef name params body =>
      some (.ok .Nil, defineMacroIn st name params body)
    | .MacroCall name args =>
      if st.expansionDepth > st.maxDepth then
        some (.error (.MaxDepthExceeded st.maxDepth name), st)
      else
        match expandMacroCall n
            { st with expansionDepth := st.expansionDepth + 1 } name args with
        | none => none
        | some (r, st') =>
          some (r, { st' with expansionDepth := st'.expansionDepth - 1 })
    | .List elements =>
      match elements with
      | [] => some (.ok (.List []), st)
      | .Symbol name :: restElems =>
        if alContains name st.macros then
          if st.expansionDepth > st.maxDepth then
            some (.error (.MaxDepthExceeded st.maxDepth name), st)
          else
            match expandMacroCall n
                { st with expansionDepth := st.expansionDepth + 1 }
                name restElems with
            | none => none
            | some (r, st') =>
              some (r, { st' with expansionDepth := st'.expansionDepth - 1 })
        else
          match expandElements n st elements with
          | none => none
          | some (r, st') => some (r.map .List, st')
      | _ :: _ =>
        match expandElements n st elements with
        | none => none
        | some (r, st') => some (r.map .List, st')
    | .Quote inner => some (.ok (.Quote inner), st)
    | .Quasiquote inner =>
      match expandQuasiquote n st inner with
      | none => none
      | some (.error err, st') => some (.error err, st')
      | some (.ok x, st') => some (.ok (.Quasiquote x), st')
    | .Unquote inner =>
      match expandExpression n st inner with
      | none => none
      | some (.error err, st') => some (.error err, st')
      | some (.ok x, st') => some (.ok (.Unquote x), st')
    | .Splice inner =>
      match expandExpression n st inner with
      | none => none
      | some (.error err, st') => some (.error err, st')
      | some (.ok x, st') => some (.ok (.Splice x), st')
    | other => some (.ok other, st)

/-- `expand_macro_call`, fueled: look the macro up, bind the parameters,
build the hygiene map (minting gensyms), rename, substitute, and expand
the result recursively. -/
def expandMacroCall : Nat → MacroExpander → String → List LispExpr →
    Option ((Except MacroError LispExpr) × MacroExpander)
  | 0, _, _, _ => none
  | n + 1, st, name, args =>
    match alLookup name st.macros with
    | none => some (.error (.UndefinedMacroName name), st)
    | some macroDef =>
      match matchParameters name macroDef.parameters args with
      | .error err => some (.error err, st)
      | .ok bindings =>
        let paramNames := alKeys bindings
        let introduced :=
          collectIntroducedSymbols st macroDef.body paramNames
        let (hygieneMap, st₁) := buildHygieneMap st introduced
        let hygienicBody := applyHygieneRenaming macroDef.body hygieneMap
        match substituteParameters n bindings hygienicBody with
        | none => none
        | some (.error err) => some (.error err, st₁)
        | some (.ok substitutedBody) => expandExpression n st₁ substitutedBody

/-- Element loop of `expand_expression`'s generic list case: expand each
element in order, dropping `Nil` results (expanded-away definitions). -/
def expandElements : Nat → MacroExpander → List LispExpr →
    Option ((Except MacroError (List LispExpr)) × MacroExpander)
  | 0, _, _ => none
  | _ + 1, st, [] => some (.ok [], st)
  | n + 1, st, e :: rest =>
    match expandExpression n st e with
    | none => none
    | some (.error err, st') => some (.error err, st')
    | some (.ok x, st') =>
      match expandElements n st' rest with
      | none => none
      | some (.error err, st'') => some (.error err, st'')
      | some (.ok xs, st'') =>
        match x with
        | .Nil => some (.ok xs, st'')
        | other => some (.ok (other :: xs), st'')

/-- `expand_quasiquote`, fueled: expand `Unquote` payloads (the wrapper
is consumed), walk lists splicing `Splice` payloads, and leave anything
else unchanged. -/
def expandQuasiquote : Nat → MacroExpander → LispExpr →
    Option ((Except MacroError LispExpr) × MacroExpander)
  | 0, _, _ => none
  | n + 1, st, e =>
    match e with
    | .Unquote inner => expandExpression n st inner
    | .List elements =>
      match expandQQElements n st elements with
      | none => none
      | some (r, st') => some (r.map .List, st')
    | other => some (.ok other, st)

/-- Element loop of `expand_quasiquote`: a `Splice` payload is expanded
and must yield a list, whose elements are interpolated; any other
element is expanded in quasiquote mode and appended singly (no `Nil`
filtering here). -/
def expandQQElements : Nat → MacroExpander → List LispExpr →
    Option ((Except MacroError (List LispExpr)) × MacroExpander)
  | 0, _, _ => none
  | _ + 1, st, [] => some (.ok [], st)
  | n + 1, st, .Splice spliceExpr :: rest =>
    match expandExpression n st spliceExpr with
    | none => none
    | some (.error err, st') => some (.error err, st')
    | some (.ok expanded, st') =>
      match expanded with
      | .List spliceElements =>
        match expandQQElements n st' rest with
        | none => none
        | some (.error err, st'') => some (.error err, st'')
        | some (.ok ys, st'') => some (.ok (spliceElements ++ ys), st'')
      | other =>
        some (.error (.ExpansionError
          "Splice (unquote-splicing) must expand to a list"
          (some ("Got: " ++ reprE other))), st')
  | n + 1, st, e :: rest =>
    match expandQuasiquote n st e with
    | none => none
    | some (.error err, st') => some (.error err, st')
    | some (.ok x, st') =>
      match expandQQElements n st' rest with
      | none => none
      | some (.error err, st'') => some (.error err, st'')
      | some (.ok ys, st'') => some (.ok (x :: ys), st'')

end

/-- `expand_all`: reset the depth counter and expand. -/
def expandAll (fuel : Nat) (st : MacroExpander) (e : LispExpr) :
    Option ((Except MacroError LispExpr) × MacroExpander) :=
  expandExpression fuel { st with expansionDepth := 0 } e

/-- Projection of an expansion outcome onto its result, discarding the
final state. -/
def resultOf
    (r : Option ((Except MacroError LispExpr) × MacroExpander)) :
    Option (Except MacroError LispExpr) :=
  r.map Prod.fst

/-! ## The type-shape validator (`src/validator.rs`) -/

/-- Validation rule tags (`enum ValidationRule`). -/
inductive ValidationRule : Type where
  | TypeSafety | ResourceBounds | FFIRestrictions | ComplexityLimits
deriving DecidableEq, Repr

/-- The inferred-type lattice (`enum InferredType`). -/
inductive InferredType : Type where
  | Number : InferredType
  | String : InferredType
  | Bool : InferredType
  | List : InferredType → InferredType
  | Symbol : InferredType
  | Unknown : InferredType
  | Any : InferredType
deriving DecidableEq, Repr

/-- `Debug` rendering of an inferred type, used in error messages. -/
def reprT : InferredType → String
  | .Number => "Number"
  | .String => "String"
  | .Bool => "Bool"
  | .List t => "List(" ++ reprT t ++ ")"
  | .Symbol => "Symbol"
  | .Unknown => "Unknown"
  | .Any => "Any"

/-- Validation errors (`struct ValidationError`). -/
structure ValidationError : Type where
  rule : ValidationRule
  message : String
  context : Option String
deriving DecidableEq, Repr

/-- A single-quote character, used when reproducing the source's
error-message format strings. -/
def sq : String := (Char.ofNat 39).toString

/-- `TypeSafetyValidator::infer_type`, over the validator's type
environment (empty for a fresh validator). -/
def inferType (env : List (String × InferredType)) : LispExpr → InferredType
  | .Number _ => .Number
  | .Str _ => .String
  | .Boolean _ => .Bool
  | .Nil => .Symbol
  | .Symbol s => (alLookup s env).getD .Unknown
  | .List es =>
    match es with
    | [] => .List .Any
    | .Symbol op :: rest =>
      if op = "+" ∨ op = "-" ∨ op = "*" ∨ op = "/" then .Number
      else if op = "<" ∨ op = ">" ∨ op = "<=" ∨ op = ">=" ∨ op = "=" then
        .Bool
      else if op = "if" then
        match rest with
        | _ :: thenBranch :: _ => inferType env thenBranch
        | _ => .Unknown
      else .Unknown
    | e₀ :: _ => .List (inferType env e₀)
  | .Quote _ => .Any
  | .Quasiquote _ => .Any
  | _ => .Unknown

/-- `TypeSafetyValidator::types_compatible`: `Unknown` and `Any` are
compatible with everything, otherwise the types must be equal. -/
def typesCompatible (t₁ t₂ : InferredType) : Bool :=
  match t₁, t₂ with
  | .Unknown, _ => true
  | _, .Unknown => true
  | .Any, _ => true
  | _, .Any => true
  | _, _ => decide (t₁ = t₂)

/-- The `TypeSafety` error built for a non-numeric operand of an
arithmetic operator, with the source's exact message text. -/
def arithMismatchError (op : String) (argType : InferredType)
    (arg : LispExpr) : ValidationError :=
  { rule := .TypeSafety,
    message := "Type mismatch: arithmetic operation " ++ sq ++ op ++ sq ++
      " requires numeric operands, got " ++ reprT argType,
    context := some (reprE arg) }

/-- The `TypeSafety` error built for an incompatible comparison. -/
def cmpMismatchError (op : String) (lt rt : InferredType)
    (left right : LispExpr) : ValidationError :=
  { rule := .TypeSafety,
    message := "Type mismatch: comparison " ++ sq ++ op ++ sq ++
      " requires compatible types, got " ++ reprT lt ++ " and " ++ reprT rt,
    context := some (reprE left ++ " vs " ++ reprE right) }

/-- The argument loop of `validate_operation` for arithmetic heads:
each operand must infer to `Number` or `Unknown`; the first offender is
reported. -/
def checkArithArgs (env : List (String × InferredType)) (op : String) :
    List LispExpr → Except ValidationError Unit
  | [] => .ok ()
  | arg :: rest =>
    match inferType env arg with
    | .Number => checkArithArgs env op rest
    | .Unknown => checkArithArgs env op rest
    | other => .error (arithMismatchError op other arg)

/-- `TypeSafetyValidator::validate_operation`. -/
def validateOperation (env : List (String × InferredType)) (op : String)
    (args : List LispExpr) : Except ValidationError Unit :=
  if op = "+" ∨ op = "-" ∨ op = "*" ∨ op = "/" then
    checkArithArgs env op args
  else if op = "<" ∨ op = ">" ∨ op = "<=" ∨ op = ">=" ∨ op = "=" then
    match args with
    | [left, right] =>
      let lt := inferType env left
      let rt := inferType env right
      if typesCompatible lt rt then .ok ()
      else .error (cmpMismatchError op lt rt left right)
    | _ => .ok ()
  else .ok ()

/-! ## Structural predicates used to state the claims -/

mutual

/-- Does `p` hold of `e` or of any subterm of `e` (descending into every
child, including `Quote` subtrees)? -/
def occursIn (p : LispExpr → Bool) (e : LispExpr) : Bool :=
  p e ||
    (match e with
     | .List es => occursInList p es
     | .MacroDef _ _ body => occursIn p body
     | .MacroCall _ args => occursInList p args
     | .Quote i => occursIn p i
     | .Quasiquote i => occursIn p i
     | .Unquote i => occursIn p i
     | .Splice i => occursIn p i
     | _ => false)

/-- List version of `occursIn`. -/
def occursInList (p : LispExpr → Bool) : List LispExpr → Bool
  | [] => false
  | e :: rest => occursIn p e || occursInList p rest

end

/-- Is this term a `MacroDef` (the source's `Macro` variant)? -/
def isMacroDefB : LispExpr → Bool
  | .MacroDef _ _ _ => true
  | _ => false

/-- Is this term a `MacroCall`? -/
def isMacroCallB : LispExpr → Bool
  | .MacroCall _ _ => true
  | _ => false

/-- Is this term an `Unquote` or a `Splice`? -/
def isHoleB : LispExpr → Bool
  | .Unquote _ => true
  | .Splice _ => true
  | _ => false

/-- Is this term a `Quasiquote` whose template contains an `Unquote` or
`Splice` anywhere? -/
def isQQWithHoleB : LispExpr → Bool
  | .Quasiquote inner => occursIn isHoleB inner
  | _ => false

/-- Is this term a list whose head symbol names a registered macro? -/
def hasRegisteredHeadB (st : MacroExpander) : LispExpr → Bool
  | .List (.Symbol name :: _) => alContains name st.macros
  | _ => false

/-- Is this term a list with a literal `Nil` element (which the element
loop of `expand_expression` prunes)? -/
def hasNilElementB : LispExpr → Bool
  | .List es => es.any (fun x => match x with | .Nil => true | _ => false)
  | _ => false

mutual

/-- Fuel sufficient to fully traverse a term with the fueled expansion
functions (each list element costs one extra level in the element
loops). -/
def efuel : LispExpr → Nat
  | .List es => efuelList es + 1
  | .MacroDef _ _ b => efuel b + 1
  | .MacroCall _ args => efuelList args + 1
  | .Quote i => efuel i + 1
  | .Quasiquote i => efuel i + 1
  | .Unquote i => efuel i + 1
  | .Splice i => efuel i + 1
  | _ => 1

def efuelList : List LispExpr → Nat
  | [] => 1
  | e :: rest => max (efuel e) (efuelList rest) + 1

end

/-- The hypothesis of the (amended) idempotence law: no `Macro` or
`MacroCall` variant anywhere, no quasiquote containing an unquote or
splice, no list headed by a registered macro name, and no list with a
literal `Nil` element. -/
def inertFor (st : MacroExpander) (e : LispExpr) : Prop :=
  occursIn isMacroDefB e = false ∧
  occursIn isMacroCallB e = false ∧
  occursIn isQQWithHoleB e = false ∧
  occursIn (hasRegisteredHeadB st) e = false ∧
  occursIn hasNilElementB e = false

/-- No registered macro body contains a `MacroCall` variant (`MacroCall`
is produced by no parser surface syntax; bodies registered from
`MacroCall`-free programs keep this invariant). -/
def regNoMC (m : List (String × MacroDefinition)) : Prop :=
  ∀ p ∈ m, occursIn isMacroCallB p.2.body = false

/-- The error is not `UndefinedMacro`. -/
def notUME (err : MacroError) : Prop :=
  ∀ s, err ≠ .UndefinedMacroName s

mutual

/-- Occurrence of `Symbol s` at a position the hygiene renamer visits:
outside `Quote` subtrees, outside `Unquote`/`Splice` payloads of a
quasiquote template, outside quasiquotes nested inside a template, and
outside `MacroCall` arguments.  The spec's "not inside a Quote (or
inside an Unquote/Splice hole)" plus, per the amendment, the remaining
positions the renamer leaves alone. -/
def occSym (s : String) : LispExpr → Bool
  | .Symbol n => n = s
  | .List es => occSymList s es
  | .Quote _ => false
  | .Quasiquote i => occSymQQ s i
  | .Unquote i => occSym s i
  | .Splice i => occSym s i
  | .MacroDef _ _ b => occSym s b
  | _ => false

def occSymList (s : String) : List LispExpr → Bool
  | [] => false
  | e :: rest => occSym s e || occSymList s rest

/-- Quasiquote-template mode of `occSym`: holes and everything the
in-template renamer skips (nested quote forms, definitions, calls,
atoms) do not count. -/
def occSymQQ (s : String) : LispExpr → Bool
  | .Unquote _ => false
  | .Splice _ => false
  | .Symbol n => n = s
  | .List es => occSymQQList s es
  | _ => false

def occSymQQList (s : String) : List LispExpr → Bool
  | [] => false
  | e :: rest => occSymQQ s e || occSymQQList s rest

end

theorem occursInList_false {p : LispExpr → Bool} {es : List LispExpr}
    (h : occursInList p es = false) : ∀ x ∈ es, occursIn p x = false := by
  induction es with
  | nil => intro x hx; cases hx
  | cons a rest ih =>
    rw [occursInList] at h
    rcases Bool.or_eq_false_iff.mp h with ⟨h₁, h₂⟩
    intro x hx
    rcases List.mem_cons.mp hx with hx | hx
    · exact hx ▸ h₁
    · exact ih h₂ x hx

theorem occursIn_self {p : LispExpr → Bool} {e : LispExpr}
    (h : occursIn p e = false) : p e = false := by
  cases e <;> simp only [occursIn, Bool.or_eq_false_iff] at h <;> exact h.1

theorem occursIn_list_children {p : LispExpr → Bool} {es : List LispExpr}
    (h : occursIn p (.List es) = false) : ∀ x ∈ es, occursIn p x = false := by
  rw [occursIn] at h
  exact occursInList_false (Bool.or_eq_false_iff.mp h).2

theorem occursIn_unquote_inner {p : LispExpr → Bool} {i : LispExpr}
    (h : occursIn p (.Unquote i) = false) : occursIn p i = false := by
  rw [occursIn] at h
  exact (Bool.or_eq_false_iff.mp h).2

theorem occursIn_splice_inner {p : LispExpr → Bool} {i : LispExpr}
    (h : occursIn p (.Splice i) = false) : occursIn p i = false := by
  rw [occursIn] at h
  exact (Bool.or_eq_false_iff.mp h).2

theorem occursIn_quasiquote_inner {p : LispExpr → Bool} {i : LispExpr}
    (h : occursIn p (.Quasiquote i) = false) : occursIn p i = false := by
  rw [occursIn] at h
  exact (Bool.or_eq_false_iff.mp h).2

theorem inertFor_list_mem {st : MacroExpander} {es : List LispExpr}
    (h : inertFor st (.List es)) : ∀ x ∈ es, inertFor st x := by
  obtain ⟨h₁, h₂, h₃, h₄, h₅⟩ := h
  intro x hx
  exact ⟨occursIn_list_children h₁ x hx, occursIn_list_children h₂ x hx,
         occursIn_list_children h₃ x hx, occursIn_list_children h₄ x hx,
         occursIn_list_children h₅ x hx⟩

theorem inertFor_unquote {st : MacroExpander} {i : LispExpr}
    (h : inertFor st (.Unquote i)) : inertFor st i := by
  obtain ⟨h₁, h₂, h₃, h₄, h₅⟩ := h
  exact ⟨occursIn_unquote_inner h₁, occursIn_unquote_inner h₂,
         occursIn_unquote_inner h₃, occursIn_unquote_inner h₄,
         occursIn_unquote_inner h₅⟩

theorem inertFor_splice {st : MacroExpander} {i : LispExpr}
    (h : inertFor st (.Splice i)) : inertFor st i := by
  obtain ⟨h₁, h₂, h₃, h₄, h₅⟩ := h
  exact ⟨occursIn_splice_inner h₁, occursIn_splice_inner h₂,
         occursIn_splice_inner h₃, occursIn_splice_inner h₄,
         occursIn_splice_inner h₅⟩

theorem list_elems_ne_nil {es : List LispExpr}
    (h : hasNilElementB (.List es) = false) : ∀ x ∈ es, x ≠ .Nil := by
  intro x hx heq
  subst heq
  rw [hasNilElementB, List.any_eq_false] at h
  have := h _ hx
  simp at this

theorem match_skip_nil {α : Type} (x : LispExpr) (h : x ≠ .Nil)
    (f : α) (g : LispExpr → α) :
    (match x with | .Nil => f | other => g other) = g x := by
  cases x <;> first | rfl | exact absurd rfl h

theorem match_skip_splice {α : Type} (x : LispExpr)
    (h : ∀ s, x ≠ .Splice s) (f : LispExpr → α) (g : LispExpr → α) :
    (match x with | .Splice s => f s | other => g other) = g x := by
  cases x <;> first | rfl | exact absurd rfl (h _)

theorem efuel_pos : ∀ e : LispExpr, 1 ≤ efuel e := by
  intro e; cases e <;> simp [efuel]

theorem efuelList_pos : ∀ es : List LispExpr, 1 ≤ efuelList es := by
  intro es; cases es <;> simp [efuelList]

theorem expandInertAux : ∀ n : Nat,
    (∀ st e, inertFor st e → efuel e ≤ n →
      expandExpression n st e = some (.ok e, st)) ∧
    (∀ st es, (∀ x ∈ es, inertFor st x) → (∀ x ∈ es, x ≠ .Nil) →
      efuelList es ≤ n → expandElements n st es = some (.ok es, st)) ∧
    (∀ st e, occursIn isHoleB e = false → efuel e ≤ n →
      expandQuasiquote n st e = some (.ok e, st)) ∧
    (∀ st es, (∀ x ∈ es, occursIn isHoleB x = false) → efuelList es ≤ n →
      expandQQElements n st es = some (.ok es, st)) := by
  intro n
  induction n with
  | zero =>
    refine ⟨?_, ?_, ?_, ?_⟩
    · intro st e _ hf; exact absurd hf (by have := efuel_pos e; omega)
    · intro st es _ _ hf; exact absurd hf (by have := efuelList_pos es; omega)
    · intro st e _ hf; exact absurd hf (by have := efuel_pos e; omega)
    · intro st es _ hf; exact absurd hf (by have := efuelList_pos es; omega)
  | succ n ih =>
    obtain ⟨ihA, ihB, ihQ, ihQL⟩ := ih
    refine ⟨?_, ?_, ?_, ?_⟩
    · intro st e hC hf
      obtain ⟨h₁, h₂, h₃, h₄, h₅⟩ := hC
      cases e with
      | Number k => simp [expandExpression]
      | Symbol s => simp [expandExpression]
      | Str s => simp [expandExpression]
      | Boolean b => simp [expandExpression]
      | Nil => simp [expandExpression]
      | Gensym s => simp [expandExpression]
      | Quote i => simp [expandExpression]
      | MacroDef name params body =>
        exact absurd (occursIn_self h₁) (by simp [isMacroDefB])
      | MacroCall name args =>
        exact absurd (occursIn_self h₂) (by simp [isMacroCallB])
      | Unquote i =>
        have hCi : inertFor st i := inertFor_unquote ⟨h₁, h₂, h₃, h₄, h₅⟩
        have hfi : efuel i ≤ n := by simp [efuel] at hf; omega
        simp [expandExpression, ihA st i hCi hfi]
      | Splice i =>
        have hCi : inertFor st i := inertFor_splice ⟨h₁, h₂, h₃, h₄, h₅⟩
        have hfi : efuel i ≤ n := by simp [efuel] at hf; omega
        simp [expandExpression, ihA st i hCi hfi]
      | Quasiquote i =>
        have hq : occursIn isHoleB i = false := by
          have := occursIn_self h₃
          simpa [isQQWithHoleB] using this
        have hfi : efuel i ≤ n := by simp [efuel] at hf; omega
        simp [expandExpression, ihQ st i hq hfi]
      | List es =>
        have hmem := inertFor_list_mem ⟨h₁, h₂, h₃, h₄, h₅⟩
        have hnil := list_elems_ne_nil (occursIn_self h₅)
        have hfes : efuelList es ≤ n := by simp [efuel] at hf; omega
        cases es with
        | nil => simp [expandExpression]
        | cons e₀ rest =>
          have hB := ihB st (e₀ :: rest) hmem hnil hfes
          cases e₀
          case Symbol name =>
            have hhead : alContains name st.macros = false := by
              have := occursIn_self h₄
              simpa [hasRegisteredHeadB] using this
            simp [expandExpression, hhead, hB, Except.map]
          all_goals simp [expandExpression, hB, Except.map]
    · intro st es hmem hnil hf
      cases es with
      | nil => simp [expandElements]
      | cons e rest =>
        have hfe : efuel e ≤ n ∧ efuelList rest ≤ n := by
          simp [efuelList] at hf; omega
        have hA := ihA st e (hmem e (by simp)) hfe.1
        have hB := ihB st rest (fun x hx => hmem x (by simp [hx]))
          (fun x hx => hnil x (by simp [hx])) hfe.2
        have hne := hnil e (by simp)
        cases e
        case Nil => exact absurd rfl hne
        all_goals simp [expandElements, hA, hB]
    · intro st e hq hf
      cases e with
      | Number k => simp [expandQuasiquote]
      | Symbol s => simp [expandQuasiquote]
      | Str s => simp [expandQuasiquote]
      | Boolean b => simp [expandQuasiquote]
      | Nil => simp [expandQuasiquote]
      | Gensym s => simp [expandQuasiquote]
      | Quote i => simp [expandQuasiquote]
      | Quasiquote i => simp [expandQuasiquote]
      | MacroDef name params body => simp [expandQuasiquote]
      | MacroCall name args => simp [expandQuasiquote]
      | Unquote i => exact absurd (occursIn_self hq) (by simp [isHoleB])
      | Splice i => exact absurd (occursIn_self hq) (by simp [isHoleB])
      | List es =>
        have hmem := occursIn_list_children hq
        have hfes : efuelList es ≤ n := by simp [efuel] at hf; omega
        simp [expandQuasiquote, ihQL st es hmem hfes, Except.map]
    · intro st es hmem hf
      cases es with
      | nil => simp [expandQQElements]
      | cons e rest =>
        have hfe : efuel e ≤ n ∧ efuelList rest ≤ n := by
          simp [efuelList] at hf; omega
        have hq := hmem e (by simp)
        have hQ := ihQ st e hq hfe.1
        have hQL := ihQL st rest (fun x hx => hmem x (by simp [hx])) hfe.2
        cases e
        case Splice i =>
          exact absurd (occursIn_self hq) (by simp [isHoleB])
        all_goals simp [expandQQElements, hQ, hQL]

/-! ## Claim C2 -/

/-- Claim C2, counterexample: the term `List [Nil]` contains no `Macro`,
no `MacroCall`, no quasiquote with an unquote, and (with an empty
registry) no list headed by a registered macro name, yet `expand_all`
prunes the `Nil` element and returns `List []`, which differs from the
input — so `expand_all(term) == term` fails as claimed. -/
theorem C2_counterexample :
    occursIn isMacroDefB (.List [.Nil]) = false ∧
    occursIn isMacroCallB (.List [.Nil]) = false ∧
    occursIn isQQWithHoleB (.List [.Nil]) = false ∧
    occursIn (hasRegisteredHeadB MacroExpander.new) (.List [.Nil]) = false ∧
    resultOf (expandAll 3 MacroExpander.new (.List [.Nil])) =
      some (.ok (.List [])) ∧
    LispExpr.List [] ≠ LispExpr.List [.Nil] :=
  ⟨rfl, rfl, rfl, rfl, rfl, by simp⟩

/-- Claim C2 (amended): if a term contains no `Macro` variant, no
`MacroCall` variant, no `Quasiquote` containing an `Unquote` or a
`Splice`, no list headed by a registered macro name, and no list with a
literal `Nil` element, then `expand_all` returns it unchanged (with the
depth counter reset to 0 and the rest of the state untouched). -/
theorem C2_amended_idempotence (fuel : Nat) (st : MacroExpander)
    (e : LispExpr) (h : inertFor st e) (hf : efuel e ≤ fuel) :
    expandAll fuel st e = some (.ok e, { st with expansionDepth := 0 }) :=
  (expandInertAux fuel).1 { st with expansionDepth := 0 } e h hf

/-- Witness for C2: a concrete macro-free call is returned unchanged. -/
theorem C2_amended_idempotence_witness :
    expandAll 5 MacroExpander.new (.List [.Symbol "foo", .Number 1]) =
      some (.ok (.List [.Symbol "foo", .Number 1]),
        { MacroExpander.new with expansionDepth := 0 }) :=
  C2_amended_idempotence 5 MacroExpander.new
    (.List [.Symbol "foo", .Number 1]) ⟨rfl, rfl, rfl, rfl, rfl⟩
    (by decide)

/-! ## Claim C5 -/

/-- Claim C5: for a macro with parameter sequence `(a &rest r)`, a call
with `k ≥ 1` arguments binds `a` to the first argument and `r` to the
list of the remaining ones (empty when `k = 1`), while a call with zero
arguments fails with `ParameterCountMismatch{expected: 1, actual: 0}`. -/
theorem C5_rest_binding_arity (name : String) (args : List LispExpr) :
    (args = [] →
      matchParameters name ["a", "&rest", "r"] args =
        .error (.ParameterCountMismatch name 1 0)) ∧
    (∀ x xs, args = x :: xs →
      ∃ b, matchParameters name ["a", "&rest", "r"] args = .ok b ∧
        alLookup "a" b = some x ∧ alLookup "r" b = some (.List xs)) := by
  constructor
  · rintro rfl; rfl
  · rintro x xs rfl
    exact ⟨_, rfl, rfl, rfl⟩

/-- Witness for C5 at concrete argument lists of length 0 and 2. -/
theorem C5_rest_binding_arity_witness :
    matchParameters "f" ["a", "&rest", "r"] [] =
      .error (.ParameterCountMismatch "f" 1 0) ∧
    ∃ b, matchParameters "f" ["a", "&rest", "r"] [.Number 1, .Number 2] =
        .ok b ∧
      alLookup "a" b = some (.Number 1) ∧
      alLookup "r" b = some (.List [.Number 2]) :=
  ⟨(C5_rest_binding_arity "f" []).1 rfl,
   (C5_rest_binding_arity "f" [.Number 1, .Number 2]).2
     (.Number 1) [.Number 2] rfl⟩

/-! ## Claim C9 -/

theorem checkArithArgs_ok_iff (env : List (String × InferredType))
    (op : String) (args : List LispExpr) :
    checkArithArgs env op args = .ok () ↔
      ∀ a ∈ args, inferType env a = .Number ∨ inferType env a = .Unknown := by
  induction args with
  | nil => simp [checkArithArgs]
  | cons a rest ih =>
    cases h : inferType env a with
    | Number => simp [checkArithArgs, h, ih]
    | Unknown => simp [checkArithArgs, h, ih]
    | String =>
      simp only [checkArithArgs, h]
      simp only [List.mem_cons]
      constructor
      · intro hcon; cases hcon
      · intro hall
        rcases hall a (Or.inl rfl) with h' | h' <;> simp [h] at h'
    | Bool =>
      simp only [checkArithArgs, h, List.mem_cons]
      constructor
      · intro hcon; cases hcon
      · intro hall
        rcases hall a (Or.inl rfl) with h' | h' <;> simp [h] at h'
    | List t =>
      simp only [checkArithArgs, h, List.mem_cons]
      constructor
      · intro hcon; cases hcon
      · intro hall
        rcases hall a (Or.inl rfl) with h' | h' <;> simp [h] at h'
    | Symbol =>
      simp only [checkArithArgs, h, List.mem_cons]
      constructor
      · intro hcon; cases hcon
      · intro hall
        rcases hall a (Or.inl rfl) with h' | h' <;> simp [h] at h'
    | Any =>
      simp only [checkArithArgs, h, List.mem_cons]
      constructor
      · intro hcon; cases hcon
      · intro hall
        rcases hall a (Or.inl rfl) with h' | h' <;> simp [h] at h'

theorem checkArithArgs_first_error (env : List (String × InferredType))
    (op : String) :
    ∀ (good : List LispExpr) (a : LispExpr) (rest : List LispExpr),
      (∀ x ∈ good, inferType env x = .Number ∨ inferType env x = .Unknown) →
      inferType env a ≠ .Number → inferType env a ≠ .Unknown →
      checkArithArgs env op (good ++ a :: rest) =
        .error (arithMismatchError op (inferType env a) a) := by
  intro good
  induction good with
  | nil =>
    intro a rest _ hn hu
    cases h : inferType env a <;> simp [checkArithArgs, h] <;> simp_all
  | cons g gs ih =>
    intro a rest hgood hn hu
    rcases hgood g (by simp) with h | h <;>
      simp only [List.cons_append, checkArithArgs, h] <;>
      exact ih a rest (fun x hx => hgood x (by simp [hx])) hn hu

/-- Claim C9: for an arithmetic head `+ - * /`, `validate_operation`
passes exactly when every operand infers to `Number` or `Unknown`, and
on the first offending operand it rejects with the `TypeSafety` error
naming the operator and that operand's inferred type. -/
theorem C9_arith_validation (env : List (String × InferredType))
    (op : String) (args : List LispExpr)
    (hop : op = "+" ∨ op = "-" ∨ op = "*" ∨ op = "/") :
    (validateOperation env op args = .ok () ↔
      ∀ a ∈ args, inferType env a = .Number ∨ inferType env a = .Unknown) ∧
    (∀ good a rest, args = good ++ a :: rest →
      (∀ x ∈ good, inferType env x = .Number ∨ inferType env x = .Unknown) →
      inferType env a ≠ .Number → inferType env a ≠ .Unknown →
      validateOperation env op args =
        .error (arithMismatchError op (inferType env a) a)) := by
  have hval : validateOperation env op args = checkArithArgs env op args := by
    unfold validateOperation
    rw [if_pos hop]
  constructor
  · rw [hval]; exact checkArithArgs_ok_iff env op args
  · intro good a rest heq hgood hn hu
    rw [hval, heq]
    exact checkArithArgs_first_error env op good a rest hgood hn hu

/-- Witness for C9 at the spec's own example `(+ "hello" 42)` (reject)
and at `(+ 1 x)` (pass). -/
theorem C9_arith_validation_witness :
    validateOperation [] "+" [.Str "hello", .Number 42] =
      .error (arithMismatchError "+" .String (.Str "hello")) ∧
    validateOperation [] "+" [.Number 1, .Symbol "x"] = .ok () := by
  constructor
  · exact (C9_arith_validation [] "+" [.Str "hello", .Number 42]
      (Or.inl rfl)).2 [] (.Str "hello") [.Number 42] rfl
      (by intro x hx; cases hx) (by simp [inferType]) (by simp [inferType])
  · exact (C9_arith_validation [] "+" [.Number 1, .Symbol "x"]
      (Or.inl rfl)).1.mpr (by
        intro a ha
        rcases List.mem_cons.mp ha with h | h
        · left; rw [h]; rfl
        · right
          have : a = .Symbol "x" := by simpa using h
          rw [this]; rfl)

/-! ## Claim C7 -/

theorem findIdx_rest_marker (tail : List String) :
    ∀ pre : List String, pre.contains "&rest" = false →
      listPosition "&rest" (pre ++ "&rest" :: tail) = some pre.length := by
  intro pre
  induction pre with
  | nil => intro _; simp [listPosition]
  | cons a pre ih =>
    intro h
    simp only [List.contains_cons, Bool.or_eq_false_iff] at h
    have ha : a ≠ "&rest" := by
      intro heq
      rw [heq] at h
      simp at h
    simp only [List.cons_append, listPosition]
    rw [if_neg ha]
    have hih : listPosition "&rest" (pre.append ("&rest" :: tail)) =
        some pre.length := ih h.2
    rw [hih]
    simp

theorem getD_append_skip {α : Type} (d : α) (l₂ : List α) :
    ∀ (pre : List α) (k : Nat),
      (pre ++ l₂).getD (pre.length + k) d = l₂.getD k d := by
  intro pre
  induction pre with
  | nil => intro k; simp
  | cons a pre ih =>
    intro k
    have : (a :: pre).length + k = (pre.length + k) + 1 := by
      simp [List.length_cons]; omega
    rw [this]
    simpa using ih k

theorem take_own_length {α : Type} :
    ∀ (pre l₂ : List α), (pre ++ l₂).take pre.length = pre := by
  intro pre
  induction pre with
  | nil => intro l₂; rfl
  | cons a pre ih => intro l₂; simp [ih]

/-- Full evaluation of `match_parameters` for a parameter sequence with
names after the `&rest` name: too few arguments hit the count check
first, otherwise the after-rest `InvalidPattern` fires. -/
theorem matchParameters_params_after_rest (name r : String)
    (pre extras : List String) (args : List LispExpr)
    (hpre : pre.contains "&rest" = false) (hex : extras ≠ []) :
    matchParameters name (pre ++ "&rest" :: r :: extras) args =
      (if args.length < pre.length then
        .error (.ParameterCountMismatch name pre.length args.length)
      else
        .error (.InvalidPattern ("&rest " ++ r)
          "Parameters cannot appear after &rest parameter")) := by
  have hlen : (pre ++ "&rest" :: r :: extras).length =
      pre.length + 2 + extras.length := by simp; omega
  unfold matchParameters
  rw [findIdx_rest_marker (r :: extras) pre hpre]
  simp only
  rw [if_neg (by rw [hlen]; omega)]
  have hname : (pre ++ "&rest" :: r :: extras).getD (pre.length + 1) "" = r := by
    rw [getD_append_skip]
    rfl
  have htake : (pre ++ "&rest" :: r :: extras).take pre.length = pre := by
    have := take_own_length pre ("&rest" :: r :: extras)
    exact this
  rw [hname, htake]
  by_cases hc : args.length < pre.length
  · rw [if_pos hc, if_pos hc]
  · rw [if_neg hc, if_neg hc,
      if_pos (by rw [hlen]; have := List.length_pos.mpr hex; omega)]

/-- Claim C7, counterexample: with parameters `(a &rest r z)`, the call
`(f)` (zero arguments) fails with `ParameterCountMismatch{expected: 1,
actual: 0}`, not with the claimed `InvalidPattern` — the count check
precedes the after-rest check. -/
theorem C7_counterexample :
    resultOf (expandAll 5
      (defineMacroIn MacroExpander.new "f" ["a", "&rest", "r", "z"]
        (.Symbol "body"))
      (.List [.Symbol "f"])) =
      some (.error (.ParameterCountMismatch "f" 1 0)) ∧
    MacroError.ParameterCountMismatch "f" 1 0 ≠
      .InvalidPattern "&rest r"
        "Parameters cannot appear after &rest parameter" :=
  ⟨rfl, by simp⟩

/-- A parameter-binding failure of a registered macro surfaces from
`expand_all` unchanged. -/
theorem expandList_match_error (fuel : Nat) (st : MacroExpander)
    (name : String) (mdef : MacroDefinition) (args : List LispExpr)
    (err : MacroError)
    (hreg : alLookup name st.macros = some mdef)
    (hmp : matchParameters name mdef.parameters args = .error err) :
    resultOf (expandAll (fuel + 2) st (.List (.Symbol name :: args))) =
      some (.error err) := by
  unfold expandAll resultOf
  simp only [expandExpression, expandMacroCall, alContains, hreg, hmp,
    Option.isSome_some, if_true]
  simp

/-- Claim C7 (amended): with a parameter sequence containing names after
the `&rest` name, a call with at least as many arguments as there are
required parameters (those before `&rest`) fails with
`InvalidPattern{"&rest name", "Parameters cannot appear after &rest
parameter"}`; a call with fewer arguments fails with
`ParameterCountMismatch{expected: k}` instead, because the source checks
the argument count before the after-rest check. -/
theorem C7_amended_params_after_rest (fuel : Nat) (st : MacroExpander)
    (name r : String) (pre extras : List String) (args : List LispExpr)
    (mdef : MacroDefinition)
    (hreg : alLookup name st.macros = some mdef)
    (hparams : mdef.parameters = pre ++ "&rest" :: r :: extras)
    (hpre : pre.contains "&rest" = false) (hex : extras ≠ []) :
    (pre.length ≤ args.length →
      resultOf (expandAll (fuel + 2) st (.List (.Symbol name :: args))) =
        some (.error (.InvalidPattern ("&rest " ++ r)
          "Parameters cannot appear after &rest parameter"))) ∧
    (args.length < pre.length →
      resultOf (expandAll (fuel + 2) st (.List (.Symbol name :: args))) =
        some (.error
          (.ParameterCountMismatch name pre.length args.length))) := by
  have h := matchParameters_params_after_rest name r pre extras args hpre hex
  constructor
  · intro hge
    refine expandList_match_error fuel st name mdef args _ hreg ?_
    rw [hparams, h, if_neg (by omega)]
  · intro hlt
    refine expandList_match_error fuel st name mdef args _ hreg ?_
    rw [hparams, h, if_pos hlt]

/-- Witness for C7 (amended) at `(defmacro f (a &rest r z) body)` called
with one argument (after-rest error) and with none (count error). -/
theorem C7_amended_params_after_rest_witness :
    resultOf (expandAll 5
        (defineMacroIn MacroExpander.new "f" ["a", "&rest", "r", "z"]
          (.Symbol "body"))
        (.List [.Symbol "f", .Number 1])) =
      some (.error (.InvalidPattern ("&rest " ++ "r")
        "Parameters cannot appear after &rest parameter")) ∧
    resultOf (expandAll 5
        (defineMacroIn MacroExpander.new "f" ["a", "&rest", "r", "z"]
          (.Symbol "body"))
        (.List [.Symbol "f"])) =
      some (.error (.ParameterCountMismatch "f" 1 0)) :=
  ⟨(C7_amended_params_after_rest 3
      (defineMacroIn MacroExpander.new "f" ["a", "&rest", "r", "z"]
        (.Symbol "body")) "f" "r" ["a"] ["z"] [.Number 1]
      ⟨"f", ["a", "&rest", "r", "z"], .Symbol "body"⟩ rfl rfl rfl
      (by simp)).1 (by decide),
   (C7_amended_params_after_rest 3
      (defineMacroIn MacroExpander.new "f" ["a", "&rest", "r", "z"]
        (.Symbol "body")) "f" "r" ["a"] ["z"] []
      ⟨"f", ["a", "&rest", "r", "z"], .Symbol "body"⟩ rfl rfl rfl
      (by simp)).2 (by decide)⟩

/-! ## Claim C10 -/

theorem buildHygieneMap_state :
    ∀ (l : List String) (st : MacroExpander),
      (buildHygieneMap st l).2 =
        { st with gensymCounter := st.gensymCounter + l.length } := by
  intro l
  induction l with
  | nil => intro st; simp [buildHygieneMap]
  | cons s rest ih =>
    intro st
    simp only [buildHygieneMap, gensym, ih]
    congr 1
    simp
    omega

theorem match_nil_snd {xs ys : List LispExpr} {s : MacroExpander}
    {out : (Except MacroError (List LispExpr)) × MacroExpander}
    (x : LispExpr)
    (h : (match x with
          | .Nil => some ((.ok xs :
              Except MacroError (List LispExpr)), s)
          | other => some (.ok (other :: ys), s)) = some out) :
    out.2 = s := by
  cases x <;> (simp only [Option.some.injEq] at h; rw [← h])

theorem match_list_snd {st' : MacroExpander} {msg : String}
    {ctx : Option String}
    {out : (Except MacroError (List LispExpr)) × MacroExpander}
    (x : LispExpr)
    (h : (match x with
          | .List l => some ((.ok l :
              Except MacroError (List LispExpr)), st')
          | other =>
            some (.error (.ExpansionError msg
              (some (ctx.getD "" ++ reprE other))), st')) = some out) :
    out.2 = st' := by
  cases x <;> (simp only [Option.some.injEq] at h; rw [← h])

theorem depth_of_exprWrap
    (res : Option ((Except MacroError LispExpr) × MacroExpander))
    (st : MacroExpander) (g : LispExpr → LispExpr)
    (out : (Except MacroError LispExpr) × MacroExpander)
    (h : (match res with
          | none => none
          | some (.error err, st') => some (.error err, st')
          | some (.ok x, st') => some (.ok (g x), st')) = some out)
    (hdep : ∀ pair, res = some pair →
      pair.2.expansionDepth = st.expansionDepth) :
    out.2.expansionDepth = st.expansionDepth := by
  rcases hres : res with _ | ⟨r, st'⟩
  · rw [hres] at h; cases h
  · rw [hres] at h
    rcases r with err | x
    · simp only [Option.some.injEq] at h
      rw [← h]
      exact hdep (.error err, st') hres
    · simp only [Option.some.injEq] at h
      rw [← h]
      exact hdep (.ok x, st') hres

theorem depth_of_wrapList (n : Nat) (st : MacroExpander)
    (es : List LispExpr)
    (out : (Except MacroError LispExpr) × MacroExpander)
    (ihL : ∀ st es out, expandElements n st es = some out →
      out.2.expansionDepth = st.expansionDepth)
    (h : (match expandElements n st es with
          | none => none
          | some (r, st') => some (r.map .List, st')) = some out) :
    out.2.expansionDepth = st.expansionDepth := by
  rcases hres : expandElements n st es with _ | ⟨r, st'⟩
  · rw [hres] at h; cases h
  · rw [hres] at h
    simp only [Option.some.injEq] at h
    rw [← h]
    exact ihL st es (r, st') hres

theorem depth_of_macroPath (n : Nat) (st : MacroExpander) (name : String)
    (args : List LispExpr)
    (out : (Except MacroError LispExpr) × MacroExpander)
    (ihM : ∀ st name args out, expandMacroCall n st name args = some out →
      out.2.expansionDepth = st.expansionDepth)
    (h : (match expandMacroCall n
            { st with expansionDepth := st.expansionDepth + 1 } name args with
          | none => none
          | some (r, st') =>
            some (r, { st' with
              expansionDepth := st'.expansionDepth - 1 })) = some out) :
    out.2.expansionDepth = st.expansionDepth := by
  rcases hres : expandMacroCall n
      { st with expansionDepth := st.expansionDepth + 1 } name args with
      _ | ⟨r, st₂⟩
  · rw [hres] at h; cases h
  · rw [hres] at h
    simp only [Option.some.injEq] at h
    rw [← h]
    have := ihM _ _ _ _ hres
    simp at this ⊢
    omega

theorem depth_of_wrapList' (n : Nat) (st : MacroExpander)
    (es : List LispExpr)
    (out : (Except MacroError LispExpr) × MacroExpander)
    (ihQL : ∀ st es out, expandQQElements n st es = some out →
      out.2.expansionDepth = st.expansionDepth)
    (h : (match expandQQElements n st es with
          | none => none
          | some (r, st') => some (r.map .List, st')) = some out) :
    out.2.expansionDepth = st.expansionDepth := by
  rcases hres : expandQQElements n st es with _ | ⟨r, st'⟩
  · rw [hres] at h; cases h
  · rw [hres] at h
    simp only [Option.some.injEq] at h
    rw [← h]
    exact ihQL st es (r, st') hres

theorem expandQQElements_cons_nonsplice (n : Nat) (st : MacroExpander)
    (e : LispExpr) (rest : List LispExpr)
    (hns : ∀ sp, e ≠ .Splice sp) :
    expandQQElements (n + 1) st (e :: rest) =
      (match expandQuasiquote n st e with
       | none => none
       | some (.error err, st') => some (.error err, st')
       | some (.ok x, st') =>
         match expandQQElements n st' rest with
         | none => none
         | some (.error err, st'') => some (.error err, st'')
         | some (.ok ys, st'') => some (.ok (x :: ys), st'')) := by
  cases e <;> first | rfl | exact absurd rfl (hns _)

theorem qqSubstList_cons_nonsplice (n : Nat)
    (bindings : List (String × LispExpr)) (e : LispExpr)
    (rest : List LispExpr) (hns : ∀ sp, e ≠ .Splice sp) :
    qqSubstList (n + 1) bindings (e :: rest) =
      (match expandQQWithSubstitution n bindings e with
       | none => none
       | some (.error err) => some (.error err)
       | some (.ok x) =>
         match qqSubstList n bindings rest with
         | none => none
         | some (.error err) => some (.error err)
         | some (.ok ys) => some (.ok (x :: ys))) := by
  cases e <;> first | rfl | exact absurd rfl (hns _)

theorem qqSpliceDispatch_nonlist (n : Nat) (st' : MacroExpander)
    (rest : List LispExpr) (expanded : LispExpr) :
    (∀ l, expanded ≠ .List l) →
    ((match expanded with
      | .List spliceElements =>
        match expandQQElements n st' rest with
        | none => none
        | some (.error err, st'') => some (.error err, st'')
        | some (.ok ys, st'') => some (.ok (spliceElements ++ ys), st'')
      | other =>
        some (.error (.ExpansionError
          "Splice (unquote-splicing) must expand to a list"
          (some ("Got: " ++ reprE other))), st')) :
      Option ((Except MacroError (List LispExpr)) × MacroExpander)) =
      some (.error (.ExpansionError
        "Splice (unquote-splicing) must expand to a list"
        (some ("Got: " ++ reprE expanded))), st') := by
  intro hnl
  cases expanded <;> first | rfl | exact absurd rfl (hnl _)

theorem depthRestoreAux : ∀ n : Nat,
    (∀ st e out, expandExpression n st e = some out →
      out.2.expansionDepth = st.expansionDepth) ∧
    (∀ st name args out, expandMacroCall n st name args = some out →
      out.2.expansionDepth = st.expansionDepth) ∧
    (∀ st es out, expandElements n st es = some out →
      out.2.expansionDepth = st.expansionDepth) ∧
    (∀ st e out, expandQuasiquote n st e = some out →
      out.2.expansionDepth = st.expansionDepth) ∧
    (∀ st es out, expandQQElements n st es = some out →
      out.2.expansionDepth = st.expansionDepth) := by
  intro n
  induction n with
  | zero =>
    refine ⟨?_, ?_, ?_, ?_, ?_⟩
    · intro st e out h; simp [expandExpression] at h
    · intro st name args out h; simp [expandMacroCall] at h
    · intro st es out h; simp [expandElements] at h
    · intro st e out h; simp [expandQuasiquote] at h
    · intro st es out h; simp [expandQQElements] at h
  | succ n ih =>
    obtain ⟨ihE, ihM, ihL, ihQ, ihQL⟩ := ih
    refine ⟨?_, ?_, ?_, ?_, ?_⟩
    · intro st e out h
      cases e with
      | MacroDef name params body =>
        simp only [expandExpression, Option.some.injEq] at h
        rw [← h]
        rfl
      | MacroCall name args =>
        simp only [expandExpression] at h
        by_cases hd : st.expansionDepth > st.maxDepth
        · rw [if_pos hd] at h
          simp only [Option.some.injEq] at h
          rw [← h]
        · rw [if_neg hd] at h
          exact depth_of_macroPath n st name args out ihM h
      | List es =>
        cases es with
        | nil =>
          simp only [expandExpression, Option.some.injEq] at h
          rw [← h]
        | cons e₀ rest =>
          cases e₀
          case Symbol name =>
            simp only [expandExpression] at h
            by_cases hc : alContains name st.macros
            · rw [if_pos hc] at h
              by_cases hd : st.expansionDepth > st.maxDepth
              · rw [if_pos hd] at h
                simp only [Option.some.injEq] at h
                rw [← h]
              · rw [if_neg hd] at h
                exact depth_of_macroPath n st name rest out ihM h
            · rw [if_neg hc] at h
              exact depth_of_wrapList n st (.Symbol name :: rest) out ihL h
          all_goals
            simp only [expandExpression] at h
          all_goals
            exact depth_of_wrapList n st _ out ihL h
      | Quote i =>
        simp only [expandExpression, Option.some.injEq] at h
        rw [← h]
      | Quasiquote i =>
        simp only [expandExpression] at h
        exact depth_of_exprWrap (expandQuasiquote n st i) st .Quasiquote out
          h (fun pair hp => ihQ st i pair hp)
      | Unquote i =>
        simp only [expandExpression] at h
        exact depth_of_exprWrap (expandExpression n st i) st .Unquote out
          h (fun pair hp => ihE st i pair hp)
      | Splice i =>
        simp only [expandExpression] at h
        exact depth_of_exprWrap (expandExpression n st i) st .Splice out
          h (fun pair hp => ihE st i pair hp)
      | Number k =>
        simp only [expandExpression, Option.some.injEq] at h; rw [← h]
      | Symbol s =>
        simp only [expandExpression, Option.some.injEq] at h; rw [← h]
      | Str s =>
        simp only [expandExpression, Option.some.injEq] at h; rw [← h]
      | Boolean b =>
        simp only [expandExpression, Option.some.injEq] at h; rw [← h]
      | Nil =>
        simp only [expandExpression, Option.some.injEq] at h; rw [← h]
      | Gensym s =>
        simp only [expandExpression, Option.some.injEq] at h; rw [← h]
    · intro st name args out h
      simp only [expandMacroCall] at h
      split at h
      · simp only [Option.some.injEq] at h; rw [← h]
      · split at h
        · simp only [Option.some.injEq] at h; rw [← h]
        · split at h
          · cases h
          · simp only [Option.some.injEq] at h
            rw [← h, buildHygieneMap_state]
          · have hout := ihE _ _ _ h
            rw [hout, buildHygieneMap_state]
    · intro st es out h
      cases es with
      | nil =>
        simp only [expandElements, Option.some.injEq] at h
        rw [← h]
      | cons e rest =>
        simp only [expandElements] at h
        rcases hm₁ : expandExpression n st e with _ | ⟨r, st'⟩
        · rw [hm₁] at h; cases h
        · rw [hm₁] at h
          have hst' := ihE st e (r, st') hm₁
          rcases r with err | x
          · simp only [Option.some.injEq] at h
            rw [← h]
            exact hst'
          · simp only [Option.some.injEq] at h
            rcases hm₂ : expandElements n st' rest with _ | ⟨r₂, st''⟩
            · rw [hm₂] at h; cases h
            · rw [hm₂] at h
              have hst'' := ihL st' rest (r₂, st'') hm₂
              have h₁ : st''.expansionDepth = st'.expansionDepth := hst''
              have h₂ : st'.expansionDepth = st.expansionDepth := hst'
              rcases r₂ with err₂ | xs
              · simp only [Option.some.injEq] at h
                rw [← h]
                exact h₁.trans h₂
              · have hout := match_nil_snd x h
                rw [hout]
                exact h₁.trans h₂
    · intro st e out h
      cases e with
      | Unquote i =>
        simp only [expandQuasiquote] at h
        exact ihE st i out h
      | List es =>
        simp only [expandQuasiquote] at h
        exact depth_of_wrapList' n st es out ihQL h
      | Number k =>
        simp only [expandQuasiquote, Option.some.injEq] at h; rw [← h]
      | Symbol s =>
        simp only [expandQuasiquote, Option.some.injEq] at h; rw [← h]
      | Str s =>
        simp only [expandQuasiquote, Option.some.injEq] at h; rw [← h]
      | Boolean b =>
        simp only [expandQuasiquote, Option.some.injEq] at h; rw [← h]
      | Nil =>
        simp only [expandQuasiquote, Option.some.injEq] at h; rw [← h]
      | Gensym s =>
        simp only [expandQuasiquote, Option.some.injEq] at h; rw [← h]
      | Quote i =>
        simp only [expandQuasiquote, Option.some.injEq] at h; rw [← h]
      | Quasiquote i =>
        simp only [expandQuasiquote, Option.some.injEq] at h; rw [← h]
      | Splice i =>
        simp only [expandQuasiquote, Option.some.injEq] at h; rw [← h]
      | MacroDef name params body =>
        simp only [expandQuasiquote, Option.some.injEq] at h; rw [← h]
      | MacroCall name args =>
        simp only [expandQuasiquote, Option.some.injEq] at h; rw [← h]
    · intro st es out h
      cases es with
      | nil =>
        simp only [expandQQElements, Option.some.injEq] at h
        rw [← h]
      | cons e rest =>
        by_cases hsp : ∃ sp, e = .Splice sp
        · obtain ⟨sp, rfl⟩ := hsp
          simp only [expandQQElements] at h
          rcases hm₁ : expandExpression n st sp with _ | ⟨r, st'⟩
          · rw [hm₁] at h; cases h
          · rw [hm₁] at h
            have hst' := ihE st sp (r, st') hm₁
            have h₂ : st'.expansionDepth = st.expansionDepth := hst'
            rcases r with err | expanded
            · simp only [Option.some.injEq] at h
              rw [← h]
              exact h₂
            · simp only [Option.some.injEq] at h
              by_cases hl : ∃ l, expanded = .List l
              · obtain ⟨l, rfl⟩ := hl
                simp only [Option.some.injEq] at h
                rcases hm₂ : expandQQElements n st' rest with _ | ⟨r₂, st''⟩
                · rw [hm₂] at h; cases h
                · rw [hm₂] at h
                  have hst'' := ihQL st' rest (r₂, st'') hm₂
                  have h₁ : st''.expansionDepth = st'.expansionDepth := hst''
                  rcases r₂ with err₂ | ys <;>
                    (simp only [Option.some.injEq] at h; rw [← h];
                     exact h₁.trans h₂)
              · have hnl : ∀ l, expanded ≠ .List l := by
                  intro l heq; exact hl ⟨l, heq⟩
                rw [qqSpliceDispatch_nonlist n st' rest expanded hnl] at h
                simp only [Option.some.injEq] at h
                rw [← h]
                exact h₂
        · have hns : ∀ sp, e ≠ .Splice sp := by
            intro sp heq; exact hsp ⟨sp, heq⟩
          rw [expandQQElements_cons_nonsplice n st e rest hns] at h
          rcases hm₁ : expandQuasiquote n st e with _ | ⟨r, st'⟩
          · rw [hm₁] at h; cases h
          · rw [hm₁] at h
            have hst' := ihQ st e (r, st') hm₁
            have h₂ : st'.expansionDepth = st.expansionDepth := hst'
            rcases r with err | x
            · simp only [Option.some.injEq] at h
              rw [← h]
              exact h₂
            · simp only [Option.some.injEq] at h
              rcases hm₂ : expandQQElements n st' rest with _ | ⟨r₂, st''⟩
              · rw [hm₂] at h; cases h
              · rw [hm₂] at h
                have hst'' := ihQL st' rest (r₂, st'') hm₂
                have h₁ : st''.expansionDepth = st'.expansionDepth := hst''
                rcases r₂ with err₂ | ys <;>
                  (simp only [Option.some.injEq] at h; rw [← h];
                   exact h₁.trans h₂)

/-- Claim C10: every entry into single-macro-call expansion increments
the depth counter and decrements it on return, on success and error
alike, so any completed `expand_expression` leaves the depth counter at
its value on entry; and `expand_all` resets the counter to 0, so its
result does not depend on the depth left by earlier calls. -/
theorem C10_depth_discipline :
    (∀ fuel st e out, expandExpression fuel st e = some out →
      out.2.expansionDepth = st.expansionDepth) ∧
    (∀ fuel (st : MacroExpander) (d : Nat) (e : LispExpr),
      expandAll fuel { st with expansionDepth := d } e =
        expandAll fuel st e) := by
  constructor
  · intro fuel
    exact (depthRestoreAux fuel).1
  · intro fuel st d e
    rfl

/-- Witness for C10 on an error path: a `MaxDepthExceeded` failure of a
self-reproducing macro leaves the depth counter at its entry value 0. -/
theorem C10_depth_discipline_witness :
    ((.error (.MaxDepthExceeded 2 "recursive_macro"),
        defineMacroIn (MacroExpander.withMaxDepth 2) "recursive_macro"
          ["x"] (.Quasiquote (.List [.Symbol "recursive_macro",
            .Unquote (.Symbol "x")]))) :
      (Except MacroError LispExpr) × MacroExpander).2.expansionDepth =
      (defineMacroIn (MacroExpander.withMaxDepth 2) "recursive_macro"
        ["x"] (.Quasiquote (.List [.Symbol "recursive_macro",
          .Unquote (.Symbol "x")]))).expansionDepth :=
  C10_depth_discipline.1 20
    (defineMacroIn (MacroExpander.withMaxDepth 2) "recursive_macro"
      ["x"] (.Quasiquote (.List [.Symbol "recursive_macro",
        .Unquote (.Symbol "x")])))
    (.List [.Symbol "recursive_macro", .Number 1])
    (.error (.MaxDepthExceeded 2 "recursive_macro"),
      defineMacroIn (MacroExpander.withMaxDepth 2) "recursive_macro"
        ["x"] (.Quasiquote (.List [.Symbol "recursive_macro",
          .Unquote (.Symbol "x")])))
    rfl

/-! ## Claim C4 -/

/-- The canonical self-reproducing macro body `(quasiquote (name
(unquote x)))` of `(defmacro name (x) (quasiquote (name (unquote x))))`. -/
def selfCallBody (name : String) : LispExpr :=
  .Quasiquote (.List [.Symbol name, .Unquote (.Symbol "x")])

/-- The registry entry of the self-reproducing macro. -/
def selfCallDef (name : String) : MacroDefinition :=
  ⟨name, ["x"], selfCallBody name⟩

/-- The call `(name 1)`. -/
def selfCall (name : String) : LispExpr :=
  .List [.Symbol name, .Number 1]

theorem collect_selfCallBody (st : MacroExpander) (name : String)
    (hb : name ∉ builtinForms)
    (hm : alContains name st.macros = true) (hnx : name ≠ "x") :
    collectIntroducedSymbols st (selfCallBody name) ["x"] = [] := by
  simp [collectIntroducedSymbols, selfCallBody,
    collectNonParameterSymbols, collectSymbolsInQuasiquote, collectSIQList,
    hnx, hb, hm, List.insertionSort, dedupAdjacent]

theorem subst_selfCallBody (n : Nat) (name : String) (hnx : name ≠ "x") :
    substituteParameters (n + 6) [("x", .Number 1)] (selfCallBody name) =
      some (.ok (selfCall name)) := by
  simp [selfCallBody, selfCall, substituteParameters, substList,
    expandQQWithSubstitution, qqSubstList, alLookup, hnx, Except.map,
    Option.map]

theorem expandList_macrohead_succ (n : Nat) (st : MacroExpander)
    (name : String) (args : List LispExpr)
    (hm : alContains name st.macros = true)
    (hd : ¬ st.expansionDepth > st.maxDepth) :
    expandExpression (n + 1) st (.List (.Symbol name :: args)) =
      (match expandMacroCall n
          { st with expansionDepth := st.expansionDepth + 1 } name args with
       | none => none
       | some (r, st') =>
         some (r, { st' with expansionDepth := st'.expansionDepth - 1 })) := by
  simp only [expandExpression, hm, if_true, if_neg hd, List.tail_cons]

theorem expandMacroCall_selfCall (n : Nat) (name : String)
    (st : MacroExpander)
    (hl : alLookup name st.macros = some (selfCallDef name))
    (hb : name ∉ builtinForms) (hnx : name ≠ "x") :
    expandMacroCall (n + 9) st name [.Number 1] =
      expandExpression (n + 8) st (selfCall name) := by
  have hm : alContains name st.macros = true := by simp [alContains, hl]
  have hcoll := collect_selfCallBody st name hb hm hnx
  have hmp : matchParameters name ["x"] [LispExpr.Number 1] =
      .ok [("x", .Number 1)] := rfl
  have hren : applyHygieneRenaming (selfCallBody name) [] =
      selfCallBody name := rfl
  have hsub : substituteParameters (n + 8) [("x", LispExpr.Number 1)]
      (selfCallBody name) = some (.ok (selfCall name)) :=
    subst_selfCallBody (n + 2) name hnx
  simp only [expandMacroCall, hl, selfCallDef, hmp, alKeys, List.map,
    hcoll, buildHygieneMap, hren, hsub]

theorem expandExpression_selfCall_step (n : Nat) (name : String)
    (st : MacroExpander)
    (hl : alLookup name st.macros = some (selfCallDef name))
    (hb : name ∉ builtinForms) (hnx : name ≠ "x")
    (hd : ¬ st.expansionDepth > st.maxDepth) :
    expandExpression (n + 10) st (selfCall name) =
      (match expandExpression (n + 8)
          { st with expansionDepth := st.expansionDepth + 1 }
          (selfCall name) with
       | none => none
       | some (r, st') =>
         some (r, { st' with expansionDepth := st'.expansionDepth - 1 })) := by
  have hm : alContains name st.macros = true := by simp [alContains, hl]
  have hmc := expandMacroCall_selfCall n name
    { st with expansionDepth := st.expansionDepth + 1 } hl hb hnx
  have hstep := expandList_macrohead_succ (n + 9) st name [.Number 1] hm hd
  rw [show selfCall name = .List (.Symbol name :: [.Number 1]) from rfl,
    hstep, hmc]
  rfl

theorem expandExpression_selfCall_base (n : Nat) (name : String)
    (st : MacroExpander)
    (hl : alLookup name st.macros = some (selfCallDef name))
    (hd : st.expansionDepth > st.maxDepth) :
    expandExpression (n + 1) st (selfCall name) =
      some (.error (.MaxDepthExceeded st.maxDepth name), st) := by
  have hm : alContains name st.macros = true := by simp [alContains, hl]
  simp [selfCall, expandExpression, hm, hd]

theorem expandExpression_selfCall_cycle : ∀ (k n : Nat) (name : String)
    (st : MacroExpander),
    alLookup name st.macros = some (selfCallDef name) →
    name ∉ builtinForms → name ≠ "x" →
    st.expansionDepth + k = st.maxDepth + 1 →
    resultOf (expandExpression (n + 10 * k + 1) st (selfCall name)) =
      some (.error (.MaxDepthExceeded st.maxDepth name)) := by
  intro k
  induction k with
  | zero =>
    intro n name st hl _ _ hdep
    have hd : st.expansionDepth > st.maxDepth := by omega
    have hfe : n + 10 * 0 + 1 = n + 1 := by ring
    rw [hfe, expandExpression_selfCall_base n name st hl hd]
    rfl
  | succ k ih =>
    intro n name st hl hb hnx hdep
    have hd : ¬ st.expansionDepth > st.maxDepth := by omega
    have hfe : n + 10 * (k + 1) + 1 = (n + 10 * k + 1) + 10 := by ring
    rw [hfe, expandExpression_selfCall_step (n + 10 * k + 1) name st hl hb
      hnx hd]
    have hfe₂ : (n + 10 * k + 1) + 8 = (n + 8) + 10 * k + 1 := by ring
    rw [hfe₂]
    have hih := ih (n + 8) name
      { st with expansionDepth := st.expansionDepth + 1 } hl hb hnx
      (by simp; omega)
    rcases hpair : expandExpression ((n + 8) + 10 * k + 1)
        { st with expansionDepth := st.expansionDepth + 1 }
        (selfCall name) with _ | ⟨r, st'⟩
    · rw [hpair] at hih; cases hih
    · rw [hpair] at hih
      simp only [resultOf, Option.map_some', Option.some.injEq] at hih
      simp only [resultOf, Option.map_some', Option.some.injEq]
      exact hih

/-- Claim C4: a macro whose expansion always reproduces a call to itself
fails under `expand_all` with `MaxDepthExceeded` carrying the configured
maximum depth and the macro's name, for every configured bound and every
registry containing the macro. -/
theorem C4_max_depth_exceeded (st : MacroExpander) (n : Nat)
    (name : String)
    (hl : alLookup name st.macros = some (selfCallDef name))
    (hb : name ∉ builtinForms) (hnx : name ≠ "x") :
    resultOf (expandAll (n + 10 * (st.maxDepth + 1) + 1) st
        (selfCall name)) =
      some (.error (.MaxDepthExceeded st.maxDepth name)) := by
  unfold expandAll
  have := expandExpression_selfCall_cycle (st.maxDepth + 1) n name
    { st with expansionDepth := 0 } hl hb hnx (by simp)
  simpa using this

/-- Witness for C4 at the configured bound 2 (the source's own unit-test
scenario): the error carries depth 2 and the macro's name. -/
theorem C4_max_depth_exceeded_witness :
    resultOf (expandAll (0 + 10 *
        ((defineMacroIn (MacroExpander.withMaxDepth 2) "recur" ["x"]
          (selfCallBody "recur")).maxDepth + 1) + 1)
        (defineMacroIn (MacroExpander.withMaxDepth 2) "recur" ["x"]
          (selfCallBody "recur"))
        (selfCall "recur")) =
      some (.error (.MaxDepthExceeded
        (defineMacroIn (MacroExpander.withMaxDepth 2) "recur" ["x"]
          (selfCallBody "recur")).maxDepth "recur")) :=
  C4_max_depth_exceeded
    (defineMacroIn (MacroExpander.withMaxDepth 2) "recur" ["x"]
      (selfCallBody "recur")) 0 "recur" rfl (by decide) (by decide)

/-! ## Claim C6 -/

/-- Claim C6: substituting the macro-call bindings into the template
`(a ,@xs b)` with `xs` bound to `List [x₁, x₂]` replaces the `Splice`
element in place by the elements of its substituted payload, producing
`List [a, x₁, x₂, b]`.  The arguments `x₁, x₂` are assumed to be fixed
points of substitution (as argument values inserted for parameters
always are after the parameter pass). -/
theorem C6_splice_flattening (n : Nat) (x₁ x₂ : LispExpr)
    (h₁ : ∀ m, substituteParameters (m + 1)
      [("xs", .List [x₁, x₂])] x₁ = some (.ok x₁))
    (h₂ : ∀ m, substituteParameters (m + 1)
      [("xs", .List [x₁, x₂])] x₂ = some (.ok x₂)) :
    substituteParameters (n + 8) [("xs", .List [x₁, x₂])]
      (.Quasiquote (.List
        [.Symbol "a", .Splice (.Symbol "xs"), .Symbol "b"])) =
      some (.ok (.List [.Symbol "a", x₁, x₂, .Symbol "b"])) := by
  have e₁ : substituteParameters (n + 2) [("xs", .List [x₁, x₂])] x₁ =
      some (.ok x₁) := h₁ (n + 1)
  have e₂ : substituteParameters (n + 1) [("xs", .List [x₁, x₂])] x₂ =
      some (.ok x₂) := h₂ n
  have hsl : substList (n + 3) [("xs", .List [x₁, x₂])] [x₁, x₂] =
      some (.ok [x₁, x₂]) := by
    simp only [substList, e₁, e₂]
  have hxs : substituteParameters (n + 4) [("xs", .List [x₁, x₂])]
      (.List [x₁, x₂]) = some (.ok (.List [x₁, x₂])) := by
    simp only [substituteParameters, hsl, Option.map_some', Except.map]
  have hq2 : qqSubstList (n + 5) [("xs", .List [x₁, x₂])]
      [.Splice (.List [x₁, x₂]), .Symbol "b"] =
      some (.ok ([x₁, x₂] ++ [.Symbol "b"])) := by
    simp only [qqSubstList, hxs, expandQQWithSubstitution]
  have hq : qqSubstList (n + 6) [("xs", .List [x₁, x₂])]
      [.Symbol "a", .Splice (.List [x₁, x₂]), .Symbol "b"] =
      some (.ok (.Symbol "a" :: ([x₁, x₂] ++ [.Symbol "b"]))) := by
    have hq2' : qqSubstList (n + 5) [("xs", .List [x₁, x₂])]
        [.Splice (.List [x₁, x₂]), .Symbol "b"] =
        some (.ok ([x₁, x₂] ++ [.Symbol "b"])) := hq2
    simp only [qqSubstList_cons_nonsplice (n + 5) [("xs", .List [x₁, x₂])]
      (.Symbol "a") [.Splice (.List [x₁, x₂]), .Symbol "b"]
      (fun _ h => by cases h), expandQQWithSubstitution, hq2']
  have hstep : substituteParameters (n + 8) [("xs", .List [x₁, x₂])]
      (.Quasiquote (.List
        [.Symbol "a", .Splice (.Symbol "xs"), .Symbol "b"])) =
      expandQQWithSubstitution (n + 7) [("xs", .List [x₁, x₂])]
        (.List [.Symbol "a", .Splice (.List [x₁, x₂]), .Symbol "b"]) := rfl
  rw [hstep]
  simp only [expandQQWithSubstitution, hq, Option.map_some', Except.map]
  simp

/-- Witness for C6 with `x₁ = 1`, `x₂ = "s"`. -/
theorem C6_splice_flattening_witness :
    substituteParameters 8 [("xs", .List [.Number 1, .Str "s"])]
      (.Quasiquote (.List
        [.Symbol "a", .Splice (.Symbol "xs"), .Symbol "b"])) =
      some (.ok (.List [.Symbol "a", .Number 1, .Str "s", .Symbol "b"])) :=
  C6_splice_flattening 0 (.Number 1) (.Str "s")
    (fun _ => rfl) (fun _ => rfl)

/-! ## Claim C8 -/

theorem mem_dedupAdjacent : ∀ (l : List String) (x : String),
    x ∈ dedupAdjacent l → x ∈ l := by
  intro l
  induction l with
  | nil => intro x hx; simp [dedupAdjacent] at hx
  | cons a rest ih =>
    cases rest with
    | nil => intro x hx; simpa [dedupAdjacent] using hx
    | cons b r =>
      intro x hx
      rw [dedupAdjacent] at hx
      by_cases hab : a = b
      · rw [if_pos hab] at hx
        exact List.mem_cons_of_mem a (ih x hx)
      · rw [if_neg hab] at hx
        rcases List.mem_cons.mp hx with hx | hx
        · exact hx ▸ List.mem_cons_self a (b :: r)
        · exact List.mem_cons_of_mem a (ih x hx)

theorem dedupAdjacent_head : ∀ (rest : List String) (b : String),
    ∃ t, dedupAdjacent (b :: rest) = b :: t := by
  intro rest
  induction rest with
  | nil => intro b; exact ⟨[], rfl⟩
  | cons c r ih =>
    intro b
    rw [dedupAdjacent]
    by_cases hbc : b = c
    · rw [if_pos hbc]
      obtain ⟨t, ht⟩ := ih c
      exact ⟨t, by rw [ht, hbc]⟩
    · rw [if_neg hbc]
      exact ⟨dedupAdjacent (c :: r), rfl⟩

theorem dedupAdjacent_sorted_lt : ∀ l : List String,
    l.Sorted (· ≤ ·) → (dedupAdjacent l).Sorted (· < ·) := by
  intro l
  induction l with
  | nil => intro _; simp [dedupAdjacent]
  | cons a rest ih =>
    cases rest with
    | nil => intro _; simp [dedupAdjacent]
    | cons b r =>
      intro hs
      have hs' : (b :: r).Sorted (· ≤ ·) := hs.of_cons
      have hale : ∀ x ∈ b :: r, a ≤ x := (List.sorted_cons.mp hs).1
      rw [dedupAdjacent]
      by_cases hab : a = b
      · rw [if_pos hab]
        exact ih hs'
      · rw [if_neg hab]
        rw [List.sorted_cons]
        refine ⟨?_, ih hs'⟩
        intro x hx
        have hxmem := mem_dedupAdjacent _ x hx
        have hax := hale x hxmem
        rcases List.mem_cons.mp hxmem with hxb | hxr
        · exact lt_of_le_of_ne (hxb ▸ hax) (hxb ▸ hab)
        · have hbx : b ≤ x := (List.sorted_cons.mp hs').1 x hxr
          have hab' : a < b := lt_of_le_of_ne (hale b (by simp)) hab
          exact lt_of_lt_of_le hab' hbx

theorem collectIntroducedSymbols_sorted (st : MacroExpander)
    (body : LispExpr) (params : List String) :
    (collectIntroducedSymbols st body params).Sorted (· ≤ ·) := by
  unfold collectIntroducedSymbols
  have hs : (((collectNonParameterSymbols body params).filter
      (fun s => ¬ builtinForms.contains s)).filter
      (fun s => ¬ alContains s st.macros)).insertionSort
        (fun a b => a ≤ b) |>.Sorted (· ≤ ·) :=
    List.sorted_insertionSort (fun a b => a ≤ b) _
  exact ((dedupAdjacent_sorted_lt _ hs).imp (fun h => le_of_lt h))

theorem collectIntroducedSymbols_nodup (st : MacroExpander)
    (body : LispExpr) (params : List String) :
    (collectIntroducedSymbols st body params).Nodup := by
  unfold collectIntroducedSymbols
  have hs := List.sorted_insertionSort (fun a b => a ≤ b)
    (((collectNonParameterSymbols body params).filter
      (fun s => ¬ builtinForms.contains s)).filter
      (fun s => ¬ alContains s st.macros))
  exact ((dedupAdjacent_sorted_lt _ hs).imp (fun h => ne_of_lt h))

theorem buildHygieneMap_lookup : ∀ (l : List String)
    (st : MacroExpander) (i : Nat) (s : String), l.Nodup →
    l.get? i = some s →
    alLookup s (buildHygieneMap st l).1 =
      some (s ++ "#g" ++ toString (st.gensymCounter + i + 1)) := by
  intro l
  induction l with
  | nil => intro st i s _ hget; simp at hget
  | cons a rest ih =>
    intro st i s hnd hget
    cases i with
    | zero =>
      simp at hget
      subst hget
      simp [buildHygieneMap, gensym, alLookup]
    | succ i =>
      simp only [List.get?_cons_succ] at hget
      have hmem : s ∈ rest := List.get?_mem hget
      have hne : s ≠ a := by
        intro heq
        subst heq
        exact (List.nodup_cons.mp hnd).1 hmem
      have ihr := ih { st with gensymCounter := st.gensymCounter + 1 } i s
        (List.nodup_cons.mp hnd).2 hget
      simp only [buildHygieneMap, gensym]
      rw [alLookup, if_neg hne]
      have ihr' : alLookup s
          (buildHygieneMap { st with gensymCounter := st.gensymCounter + 1 } rest).1 =
          some (s ++ "#g" ++ toString (st.gensymCounter + 1 + i + 1)) := ihr
      rw [show st.gensymCounter + 1 + i + 1 = st.gensymCounter + (i + 1) + 1 from by omega]
        at ihr'
      rw [ihr']

/-- Claim C8, counterexample: the macro body `(bb aa)` is traversed with
`bb` first, yet `bb` receives the second minted hygiene id (`bb#g2`) and
`aa` the first (`aa#g1`): ids are minted in sorted order, not traversal
order. -/
theorem C8_counterexample :
    collectNonParameterSymbols (.List [.Symbol "bb", .Symbol "aa"]) [] =
      ["bb", "aa"] ∧
    resultOf (expandAll 10
        (defineMacroIn MacroExpander.new "mac" []
          (.List [.Symbol "bb", .Symbol "aa"]))
        (.List [.Symbol "mac"])) =
      some (.ok (.List [.Gensym "bb#g2", .Gensym "aa#g1"])) ∧
    (some (Except.ok (LispExpr.List [.Gensym "bb#g2", .Gensym "aa#g1"])) :
        Option (Except MacroError LispExpr)) ≠
      some (Except.ok (LispExpr.List [.Gensym "bb#g1", .Gensym "aa#g2"])) :=
  ⟨rfl, by with_unfolding_all rfl, by simp⟩

/-- Claim C8 (amended): the hygiene ids of one expansion are minted over
the deduplicated introduced symbols in lexicographically sorted order
(the i-th symbol of the sorted list receives id `counter + i + 1`), not
in body-traversal order; the assignment is still deterministic for a
fixed AST. -/
theorem C8_amended_minting_order (st : MacroExpander) (body : LispExpr)
    (params : List String) (i : Nat) (s : String)
    (hget : (collectIntroducedSymbols st body params).get? i = some s) :
    (collectIntroducedSymbols st body params).Sorted (· ≤ ·) ∧
    alLookup s
        (buildHygieneMap st (collectIntroducedSymbols st body params)).1 =
      some (s ++ "#g" ++ toString (st.gensymCounter + i + 1)) :=
  ⟨collectIntroducedSymbols_sorted st body params,
   buildHygieneMap_lookup (collectIntroducedSymbols st body params) st i s
     (collectIntroducedSymbols_nodup st body params) hget⟩

/-- Witness for C8 (amended): for the body `(bb aa)`, `aa` (index 0 of
the sorted introduced list) receives the first minted id `aa#g1`. -/
theorem C8_amended_minting_order_witness :
    (collectIntroducedSymbols MacroExpander.new
        (.List [.Symbol "bb", .Symbol "aa"]) []).Sorted (· ≤ ·) ∧
    alLookup "aa"
        (buildHygieneMap MacroExpander.new
          (collectIntroducedSymbols MacroExpander.new
            (.List [.Symbol "bb", .Symbol "aa"]) [])).1 =
      some ("aa" ++ "#g" ++ toString (MacroExpander.new.gensymCounter + 0 + 1)) :=
  C8_amended_minting_order MacroExpander.new
    (.List [.Symbol "bb", .Symbol "aa"]) [] 0 "aa" (by with_unfolding_all rfl)

/-! ## Claim C3 -/

theorem mem_dedupAdjacent_of_mem : ∀ (l : List String) (x : String),
    x ∈ l → x ∈ dedupAdjacent l := by
  intro l
  induction l with
  | nil => intro x hx; simp at hx
  | cons a rest ih =>
    cases rest with
    | nil => intro x hx; simpa [dedupAdjacent] using hx
    | cons b r =>
      intro x hx
      rw [dedupAdjacent]
      by_cases hab : a = b
      · rw [if_pos hab]
        rcases List.mem_cons.mp hx with hxa | hxr
        · exact ih x (by rw [hxa, hab]; exact List.mem_cons_self b r)
        · exact ih x hxr
      · rw [if_neg hab]
        rcases List.mem_cons.mp hx with hxa | hxr
        · exact hxa ▸ List.mem_cons_self a _
        · exact List.mem_cons_of_mem a (ih x hxr)

theorem mem_collectIntroduced (st : MacroExpander) (body : LispExpr)
    (params : List String) (s : String)
    (hs : s ∈ collectNonParameterSymbols body params)
    (hb : builtinForms.contains s = false)
    (hmac : alContains s st.macros = false) :
    s ∈ collectIntroducedSymbols st body params := by
  unfold collectIntroducedSymbols
  apply mem_dedupAdjacent_of_mem
  have h₁ : s ∈ (collectNonParameterSymbols body params).filter
      (fun s => ¬ builtinForms.contains s) :=
    List.mem_filter.mpr ⟨hs, by simpa using hb⟩
  have h₂ : s ∈ ((collectNonParameterSymbols body params).filter
      (fun s => ¬ builtinForms.contains s)).filter
      (fun s => ¬ alContains s st.macros) :=
    List.mem_filter.mpr ⟨h₁, by simp [hmac]⟩
  exact ((List.perm_insertionSort (fun a b => a ≤ b) _).mem_iff).mpr h₂

theorem buildHygieneMap_mem_lookup : ∀ (l : List String)
    (st : MacroExpander) (s : String), s ∈ l →
    ∃ g, alLookup s (buildHygieneMap st l).1 = some g := by
  intro l
  induction l with
  | nil => intro st s hs; simp at hs
  | cons a rest ih =>
    intro st s hs
    by_cases hsa : s = a
    · subst hsa
      exact ⟨s ++ "#g" ++ toString (st.gensymCounter + 1), by
        simp [buildHygieneMap, gensym, alLookup]⟩
    · rcases List.mem_cons.mp hs with h | h
      · exact absurd h hsa
      · obtain ⟨g, hg⟩ :=
          ih { st with gensymCounter := st.gensymCounter + 1 } s h
        refine ⟨g, ?_⟩
        simp only [buildHygieneMap, gensym]
        rw [alLookup, if_neg hsa]
        exact hg

theorem renameRemovesAux (s : String) : ∀ n : Nat,
    (∀ e hm, efuel e ≤ n → (∃ g, alLookup s hm = some g) →
      occSym s (applyHygieneRenaming e hm) = false) ∧
    (∀ es hm, efuelList es ≤ n → (∃ g, alLookup s hm = some g) →
      occSymList s (renameList es hm) = false) ∧
    (∀ e hm, efuel e ≤ n → (∃ g, alLookup s hm = some g) →
      occSymQQ s (applyHygieneRenamingInQuasiquote e hm) = false) ∧
    (∀ es hm, efuelList es ≤ n → (∃ g, alLookup s hm = some g) →
      occSymQQList s (renameQQList es hm) = false) := by
  intro n
  induction n with
  | zero =>
    refine ⟨?_, ?_, ?_, ?_⟩
    · intro e _ hf _; exact absurd hf (by have := efuel_pos e; omega)
    · intro es _ hf _; exact absurd hf (by have := efuelList_pos es; omega)
    · intro e _ hf _; exact absurd hf (by have := efuel_pos e; omega)
    · intro es _ hf _; exact absurd hf (by have := efuelList_pos es; omega)
  | succ n ih =>
    obtain ⟨ihA, ihB, ihC, ihD⟩ := ih
    refine ⟨?_, ?_, ?_, ?_⟩
    · intro e hm hf hg
      cases e
      case Symbol name =>
        by_cases hns : name = s
        · subst hns
          obtain ⟨g, hgl⟩ := hg
          simp [applyHygieneRenaming, hgl, occSym]
        · rcases halk : alLookup name hm with _ | g <;>
            simp [applyHygieneRenaming, halk, occSym, hns]
      case List es =>
        have hfe : efuelList es ≤ n := by rw [efuel] at hf; omega
        simpa [applyHygieneRenaming, occSym] using ihB es hm hfe hg
      case Quasiquote i =>
        have hfe : efuel i ≤ n := by rw [efuel] at hf; omega
        simpa [applyHygieneRenaming, occSym] using ihC i hm hfe hg
      case Unquote i =>
        have hfe : efuel i ≤ n := by rw [efuel] at hf; omega
        simpa [applyHygieneRenaming, occSym] using ihA i hm hfe hg
      case Splice i =>
        have hfe : efuel i ≤ n := by rw [efuel] at hf; omega
        simpa [applyHygieneRenaming, occSym] using ihA i hm hfe hg
      case MacroDef nm ps b =>
        have hfe : efuel b ≤ n := by rw [efuel] at hf; omega
        simpa [applyHygieneRenaming, occSym] using ihA b hm hfe hg
      all_goals simp [applyHygieneRenaming, occSym]
    · intro es hm hf hg
      cases es with
      | nil => simp [renameList, occSymList]
      | cons e rest =>
        have hfe : efuel e ≤ n := by
          rw [efuelList] at hf
          have := le_max_left (efuel e) (efuelList rest)
          omega
        have hfr : efuelList rest ≤ n := by
          rw [efuelList] at hf
          have := le_max_right (efuel e) (efuelList rest)
          omega
        simp [renameList, occSymList, ihA e hm hfe hg, ihB rest hm hfr hg]
    · intro e hm hf hg
      cases e
      case Symbol name =>
        by_cases hns : name = s
        · subst hns
          obtain ⟨g, hgl⟩ := hg
          simp [applyHygieneRenamingInQuasiquote, hgl, occSymQQ]
        · rcases halk : alLookup name hm with _ | g <;>
            simp [applyHygieneRenamingInQuasiquote, halk, occSymQQ, hns]
      case List es =>
        have hfe : efuelList es ≤ n := by rw [efuel] at hf; omega
        simpa [applyHygieneRenamingInQuasiquote, occSymQQ]
          using ihD es hm hfe hg
      all_goals simp [applyHygieneRenamingInQuasiquote, occSymQQ]
    · intro es hm hf hg
      cases es with
      | nil => simp [renameQQList, occSymQQList]
      | cons e rest =>
        have hfe : efuel e ≤ n := by
          rw [efuelList] at hf
          have := le_max_left (efuel e) (efuelList rest)
          omega
        have hfr : efuelList rest ≤ n := by
          rw [efuelList] at hf
          have := le_max_right (efuel e) (efuelList rest)
          omega
        simp [renameQQList, occSymQQList, ihC e hm hfe hg,
          ihD rest hm hfr hg]

/-- Claim C3, counterexample: the body of `mac2` refers to `v` (not a
parameter, not a built-in, not a macro name) both at the top level and
inside a quasiquote nested in a quasiquote — neither occurrence is
inside a `Quote` or inside an `Unquote`/`Splice` hole — and the call
argument also uses `Symbol v`.  The body contains no occurrence of the
parameter `p`, so the argument is never inserted; yet the expanded
output contains a bare body-originated `Symbol v`: the renamer leaves
quasiquotes nested inside a template untouched. -/
theorem C3_counterexample :
    collectNonParameterSymbols
        (.List [.Symbol "v", .Quasiquote (.Quasiquote (.Symbol "v"))])
        ["p"] = ["v"] ∧
    builtinForms.contains "v" = false ∧
    alContains "v" (defineMacroIn MacroExpander.new "mac2" ["p"]
        (.List [.Symbol "v",
          .Quasiquote (.Quasiquote (.Symbol "v"))])).macros = false ∧
    resultOf (expandAll 10
        (defineMacroIn MacroExpander.new "mac2" ["p"]
          (.List [.Symbol "v", .Quasiquote (.Quasiquote (.Symbol "v"))]))
        (.List [.Symbol "mac2", .Symbol "v"])) =
      some (.ok (.List [.Gensym "v#g1", .Symbol "v"])) :=
  ⟨rfl, rfl, rfl, by with_unfolding_all rfl⟩

/-- Claim C3 (amended): if the macro body mentions a symbol `s` outside
quotes and holes (as `collect_non_parameter_symbols` sees it) and `s` is
neither a parameter, nor a built-in form, nor a registered macro name,
then the hygiene-renamed body contains no `Symbol s` at any position the
renamer rewrites: outside `Quote` subtrees, outside `Unquote`/`Splice`
payloads of a template, outside quasiquotes nested inside a template,
and outside `MacroCall` arguments.  Occurrences at the excluded
positions — in particular inside a nested quasiquote — are *not*
renamed, contrary to the claim, and can reach the output as bare
`Symbol s` (see the counterexample).  The renaming map may be minted
from any gensym state `stG`. -/
theorem C3_amended_hygiene (st stG : MacroExpander) (body : LispExpr)
    (params : List String) (s : String)
    (hs : s ∈ collectNonParameterSymbols body params)
    (hb : builtinForms.contains s = false)
    (hmac : alContains s st.macros = false) :
    occSym s (applyHygieneRenaming body
      (buildHygieneMap stG (collectIntroducedSymbols st body params)).1) =
      false := by
  have hmem := mem_collectIntroduced st body params s hs hb hmac
  have hlook := buildHygieneMap_mem_lookup _ stG s hmem
  exact (renameRemovesAux s (efuel body)).1 body _ le_rfl hlook

/-- Witness for C3 (amended): for the body `(v ``(``(v)))` with
parameter list `[p]`, every renamer-visited occurrence of `v` in the
hygiene-renamed body is gone. -/
theorem C3_amended_hygiene_witness :
    occSym "v" (applyHygieneRenaming
      (.List [.Symbol "v", .Quasiquote (.Quasiquote (.Symbol "v"))])
      (buildHygieneMap MacroExpander.new
        (collectIntroducedSymbols MacroExpander.new
          (.List [.Symbol "v", .Quasiquote (.Quasiquote (.Symbol "v"))])
          ["p"])).1) = false :=
  C3_amended_hygiene MacroExpander.new MacroExpander.new
    (.List [.Symbol "v", .Quasiquote (.Quasiquote (.Symbol "v"))])
    ["p"] "v" (by simp [collectNonParameterSymbols, collectNPSList,
      collectSymbolsInQuasiquote, collectSIQList]) rfl rfl

/-! ## Claim C1 -/

theorem occursInList_cons_false {p : LispExpr → Bool} {e : LispExpr}
    {rest : List LispExpr} (h : occursInList p (e :: rest) = false) :
    occursIn p e = false ∧ occursInList p rest = false := by
  rw [occursInList] at h
  exact Bool.or_eq_false_iff.mp h

theorem occursInList_of_forall {p : LispExpr → Bool} :
    ∀ {es : List LispExpr}, (∀ x ∈ es, occursIn p x = false) →
      occursInList p es = false := by
  intro es
  induction es with
  | nil => intro _; rfl
  | cons e rest ih =>
    intro h
    rw [occursInList, Bool.or_eq_false_iff]
    exact ⟨h e (List.mem_cons_self e rest),
      ih (fun x hx => h x (List.mem_cons_of_mem e hx))⟩

theorem occursInList_append_false {p : LispExpr → Bool}
    {xs ys : List LispExpr} (hx : occursInList p xs = false)
    (hy : occursInList p ys = false) :
    occursInList p (xs ++ ys) = false := by
  refine occursInList_of_forall ?_
  intro x hmem
  rcases List.mem_append.mp hmem with h | h
  · exact occursInList_false hx x h
  · exact occursInList_false hy x h

theorem noMC_list_intro {es : List LispExpr}
    (h : occursInList isMacroCallB es = false) :
    occursIn isMacroCallB (.List es) = false := by
  rw [occursIn, Bool.or_eq_false_iff]
  exact ⟨rfl, h⟩

theorem occursIn_list_inner {p : LispExpr → Bool} {es : List LispExpr}
    (h : occursIn p (.List es) = false) :
    occursInList p es = false := by
  rw [occursIn] at h
  exact (Bool.or_eq_false_iff.mp h).2

theorem occursIn_macrodef_body {p : LispExpr → Bool} {nm : String}
    {ps : List String} {b : LispExpr}
    (h : occursIn p (.MacroDef nm ps b) = false) :
    occursIn p b = false := by
  rw [occursIn] at h
  exact (Bool.or_eq_false_iff.mp h).2

theorem alLookup_mem {α : Type} (k : String) (v : α) :
    ∀ m : List (String × α), alLookup k m = some v → (k, v) ∈ m := by
  intro m
  induction m with
  | nil => intro h; cases h
  | cons a rest ih =>
    intro h
    rw [alLookup] at h
    by_cases hk : k = a.1
    · rw [if_pos hk] at h
      simp only [Option.some.injEq] at h
      have hkv : (k, v) = a := by rw [hk, ← h]
      rw [hkv]
      exact List.mem_cons_self a rest
    · rw [if_neg hk] at h
      exact List.mem_cons_of_mem a (ih h)

theorem alContains_exists {α : Type} (k : String)
    (m : List (String × α)) (h : alContains k m = true) :
    ∃ v, alLookup k m = some v := by
  rw [alContains] at h
  exact Option.isSome_iff_exists.mp h

theorem matchParameters_not_undefined (mn : String) (ps : List String)
    (args : List LispExpr) (err : MacroError)
    (h : matchParameters mn ps args = .error err) : notUME err := by
  intro s
  rw [matchParameters] at h
  split at h
  · rename_i restIdx heqlp
    by_cases h1 : restIdx + 1 ≥ ps.length
    · rw [if_pos h1] at h
      simp only [Except.error.injEq] at h; rw [← h]; simp
    · rw [if_neg h1] at h
      dsimp only at h
      by_cases h2 : args.length < (ps.take restIdx).length
      · rw [if_pos h2] at h
        simp only [Except.error.injEq] at h; rw [← h]; simp
      · rw [if_neg h2] at h
        by_cases h3 : restIdx + 2 < ps.length
        · rw [if_pos h3] at h
          simp only [Except.error.injEq] at h; rw [← h]; simp
        · rw [if_neg h3] at h
          cases h
  · by_cases h1 : ps.length ≠ args.length
    · rw [if_pos h1] at h
      simp only [Except.error.injEq] at h; rw [← h]; simp
    · rw [if_neg h1] at h
      cases h

theorem mem_foldl_alInsert : ∀ (l acc : List (String × LispExpr))
    (pr : String × LispExpr),
    pr ∈ l.foldl (fun m p => alInsert p.1 p.2 m) acc →
    pr ∈ acc ∨ pr ∈ l := by
  intro l
  induction l with
  | nil => intro acc pr h; exact Or.inl h
  | cons a rest ih =>
    intro acc pr h
    rw [List.foldl_cons] at h
    rcases ih (alInsert a.1 a.2 acc) pr h with h' | h'
    · have h'' : pr ∈ (a.1, a.2) :: acc := h'
      rcases List.mem_cons.mp h'' with h₀ | h₀
      · exact Or.inr (by rw [h₀]; exact List.mem_cons_self a rest)
      · exact Or.inl h₀
    · exact Or.inr (List.mem_cons_of_mem a h')

theorem matchParameters_values (mn : String) (ps : List String)
    (args : List LispExpr) (bindings : List (String × LispExpr))
    (hargs : occursInList isMacroCallB args = false)
    (h : matchParameters mn ps args = .ok bindings) :
    ∀ pr ∈ bindings, occursIn isMacroCallB pr.2 = false := by
  have hael := occursInList_false hargs
  rw [matchParameters] at h
  split at h
  · rename_i restIdx heqlp
    by_cases h1 : restIdx + 1 ≥ ps.length
    · rw [if_pos h1] at h; cases h
    · rw [if_neg h1] at h
      dsimp only at h
      by_cases h2 : args.length < (ps.take restIdx).length
      · rw [if_pos h2] at h; cases h
      · rw [if_neg h2] at h
        by_cases h3 : restIdx + 2 < ps.length
        · rw [if_pos h3] at h; cases h
        · rw [if_neg h3] at h
          simp only [Except.ok.injEq] at h
          subst h
          intro pr hpr
          obtain ⟨k, v⟩ := pr
          rcases List.mem_cons.mp hpr with h' | h'
          · have hv : v = .List (args.drop (ps.take restIdx).length) := by
              have := congrArg Prod.snd h'
              simpa using this
            rw [hv]
            refine noMC_list_intro (occursInList_of_forall ?_)
            intro x hx
            exact hael x (List.drop_subset _ _ hx)
          · rcases mem_foldl_alInsert _ _ _ h' with h₀ | h₀
            · exact absurd h₀ (List.not_mem_nil _)
            · exact hael v (List.of_mem_zip h₀).2
  · by_cases h1 : ps.length ≠ args.length
    · rw [if_pos h1] at h; cases h
    · rw [if_neg h1] at h
      simp only [Except.ok.injEq] at h
      subst h
      intro pr hpr
      obtain ⟨k, v⟩ := pr
      rcases mem_foldl_alInsert _ _ _ hpr with h' | h'
      · exact absurd h' (List.not_mem_nil _)
      · exact hael v (List.of_mem_zip h').2

theorem okPair {α : Type} {P : α → Prop} (v : α) (hv : P v) :
    (∀ err, (Except.ok v : Except MacroError α) = .error err →
      notUME err) ∧
    (∀ out, (Except.ok v : Except MacroError α) = .ok out → P out) :=
  ⟨fun _ heq => (nomatch heq),
   fun _ hout => by injection hout with h; exact h ▸ hv⟩

theorem errPair {α : Type} {P : α → Prop} (err₀ : MacroError)
    (he : notUME err₀) :
    (∀ err, (Except.error err₀ : Except MacroError α) = .error err →
      notUME err) ∧
    (∀ out, (Except.error err₀ : Except MacroError α) = .ok out →
      P out) :=
  ⟨fun _ heq => by injection heq with h; exact h ▸ he,
   fun _ hout => (nomatch hout)⟩

theorem noMC_quasiquote_intro {i : LispExpr}
    (h : occursIn isMacroCallB i = false) :
    occursIn isMacroCallB (.Quasiquote i) = false := by
  rw [occursIn, Bool.or_eq_false_iff]
  exact ⟨rfl, h⟩

theorem noMC_unquote_intro {i : LispExpr}
    (h : occursIn isMacroCallB i = false) :
    occursIn isMacroCallB (.Unquote i) = false := by
  rw [occursIn, Bool.or_eq_false_iff]
  exact ⟨rfl, h⟩

theorem noMC_splice_intro {i : LispExpr}
    (h : occursIn isMacroCallB i = false) :
    occursIn isMacroCallB (.Splice i) = false := by
  rw [occursIn, Bool.or_eq_false_iff]
  exact ⟨rfl, h⟩

theorem noMC_macrodef_intro {nm : String} {ps : List String}
    {b : LispExpr} (h : occursIn isMacroCallB b = false) :
    occursIn isMacroCallB (.MacroDef nm ps b) = false := by
  rw [occursIn, Bool.or_eq_false_iff]
  exact ⟨rfl, h⟩

theorem occursInList_cons_intro {e : LispExpr} {rest : List LispExpr}
    {p : LispExpr → Bool} (he : occursIn p e = false)
    (hr : occursInList p rest = false) :
    occursInList p (e :: rest) = false := by
  rw [occursInList, Bool.or_eq_false_iff]
  exact ⟨he, hr⟩

theorem renameNoMCAux : ∀ n : Nat,
    (∀ e hm, efuel e ≤ n → occursIn isMacroCallB e = false →
      occursIn isMacroCallB (applyHygieneRenaming e hm) = false) ∧
    (∀ es hm, efuelList es ≤ n → occursInList isMacroCallB es = false →
      occursInList isMacroCallB (renameList es hm) = false) ∧
    (∀ e hm, efuel e ≤ n → occursIn isMacroCallB e = false →
      occursIn isMacroCallB
        (applyHygieneRenamingInQuasiquote e hm) = false) ∧
    (∀ es hm, efuelList es ≤ n → occursInList isMacroCallB es = false →
      occursInList isMacroCallB (renameQQList es hm) = false) := by
  intro n
  induction n with
  | zero =>
    refine ⟨?_, ?_, ?_, ?_⟩
    · intro e _ hf _; exact absurd hf (by have := efuel_pos e; omega)
    · intro es _ hf _; exact absurd hf (by have := efuelList_pos es; omega)
    · intro e _ hf _; exact absurd hf (by have := efuel_pos e; omega)
    · intro es _ hf _; exact absurd hf (by have := efuelList_pos es; omega)
  | succ n ih =>
    obtain ⟨ihA, ihB, ihC, ihD⟩ := ih
    refine ⟨?_, ?_, ?_, ?_⟩
    · intro e hm hf hnomc
      cases e
      case Symbol name =>
        rcases halk : alLookup name hm with _ | g <;>
          simp [applyHygieneRenaming, halk, occursIn, isMacroCallB]
      case List es =>
        have hfe : efuelList es ≤ n := by rw [efuel] at hf; omega
        simp only [applyHygieneRenaming]
        exact noMC_list_intro
          (ihB es hm hfe (occursIn_list_inner hnomc))
      case Quasiquote i =>
        have hfe : efuel i ≤ n := by rw [efuel] at hf; omega
        simp only [applyHygieneRenaming]
        exact noMC_quasiquote_intro
          (ihC i hm hfe (occursIn_quasiquote_inner hnomc))
      case Unquote i =>
        have hfe : efuel i ≤ n := by rw [efuel] at hf; omega
        simp only [applyHygieneRenaming]
        exact noMC_unquote_intro
          (ihA i hm hfe (occursIn_unquote_inner hnomc))
      case Splice i =>
        have hfe : efuel i ≤ n := by rw [efuel] at hf; omega
        simp only [applyHygieneRenaming]
        exact noMC_splice_intro
          (ihA i hm hfe (occursIn_splice_inner hnomc))
      case MacroDef nm ps b =>
        have hfe : efuel b ≤ n := by rw [efuel] at hf; omega
        simp only [applyHygieneRenaming]
        exact noMC_macrodef_intro
          (ihA b hm hfe (occursIn_macrodef_body hnomc))
      all_goals simpa [applyHygieneRenaming] using hnomc
    · intro es hm hf hnomc
      cases es with
      | nil => simpa [renameList] using hnomc
      | cons e rest =>
        have hfe : efuel e ≤ n := by
          rw [efuelList] at hf
          have := le_max_left (efuel e) (efuelList rest)
          omega
        have hfr : efuelList rest ≤ n := by
          rw [efuelList] at hf
          have := le_max_right (efuel e) (efuelList rest)
          omega
        obtain ⟨he, hr⟩ := occursInList_cons_false hnomc
        rw [renameList]
        exact occursInList_cons_intro (ihA e hm hfe he)
          (ihB rest hm hfr hr)
    · intro e hm hf hnomc
      cases e
      case Symbol name =>
        rcases halk : alLookup name hm with _ | g <;>
          simp [applyHygieneRenamingInQuasiquote, halk, occursIn,
            isMacroCallB]
      case List es =>
        have hfe : efuelList es ≤ n := by rw [efuel] at hf; omega
        simp only [applyHygieneRenamingInQuasiquote]
        exact noMC_list_intro
          (ihD es hm hfe (occursIn_list_inner hnomc))
      all_goals simpa [applyHygieneRenamingInQuasiquote] using hnomc
    · intro es hm hf hnomc
      cases es with
      | nil => simpa [renameQQList] using hnomc
      | cons e rest =>
        have hfe : efuel e ≤ n := by
          rw [efuelList] at hf
          have := le_max_left (efuel e) (efuelList rest)
          omega
        have hfr : efuelList rest ≤ n := by
          rw [efuelList] at hf
          have := le_max_right (efuel e) (efuelList rest)
          omega
        obtain ⟨he, hr⟩ := occursInList_cons_false hnomc
        rw [renameQQList]
        exact occursInList_cons_intro (ihC e hm hfe he)
          (ihD rest hm hfr hr)

theorem qqSubstDispatch_nonlist (n : Nat)
    (bindings : List (String × LispExpr)) (rest : List LispExpr)
    (substituted : LispExpr) :
    (∀ l, substituted ≠ .List l) →
    ((match substituted with
      | .List spliceElements =>
        match qqSubstList n bindings rest with
        | none => none
        | some (.error err) => some (.error err)
        | some (.ok ys) => some (.ok (spliceElements ++ ys))
      | other =>
        some (.error (.ExpansionError
          "Splice (unquote-splicing) must expand to a list"
          (some ("Got: " ++ reprE other))))) :
      Option (Except MacroError (List LispExpr))) =
      some (.error (.ExpansionError
        "Splice (unquote-splicing) must expand to a list"
        (some ("Got: " ++ reprE substituted)))) := by
  intro hnl
  cases substituted <;> first | rfl | exact absurd rfl (hnl _)

theorem substNoMCAux : ∀ n : Nat,
    (∀ bindings e r,
      (∀ pr ∈ bindings, occursIn isMacroCallB pr.2 = false) →
      occursIn isMacroCallB e = false →
      substituteParameters n bindings e = some r →
      (∀ err, r = .error err → notUME err) ∧
      (∀ out, r = .ok out → occursIn isMacroCallB out = false)) ∧
    (∀ bindings es r,
      (∀ pr ∈ bindings, occursIn isMacroCallB pr.2 = false) →
      occursInList isMacroCallB es = false →
      substList n bindings es = some r →
      (∀ err, r = .error err → notUME err) ∧
      (∀ outs, r = .ok outs → occursInList isMacroCallB outs = false)) ∧
    (∀ bindings e r,
      (∀ pr ∈ bindings, occursIn isMacroCallB pr.2 = false) →
      occursIn isMacroCallB e = false →
      expandQQWithSubstitution n bindings e = some r →
      (∀ err, r = .error err → notUME err) ∧
      (∀ out, r = .ok out → occursIn isMacroCallB out = false)) ∧
    (∀ bindings es r,
      (∀ pr ∈ bindings, occursIn isMacroCallB pr.2 = false) →
      occursInList isMacroCallB es = false →
      qqSubstList n bindings es = some r →
      (∀ err, r = .error err → notUME err) ∧
      (∀ outs, r = .ok outs → occursInList isMacroCallB outs = false)) := by
  intro n
  induction n with
  | zero =>
    refine ⟨?_, ?_, ?_, ?_⟩ <;> intro bindings x r _ _ h <;>
      simp [substituteParameters, substList, expandQQWithSubstitution,
        qqSubstList] at h
  | succ n ih =>
    obtain ⟨ihA, ihB, ihC, ihD⟩ := ih
    refine ⟨?_, ?_, ?_, ?_⟩
    · intro bindings e r hb hnomc h
      cases e
      case Symbol name =>
        simp only [substituteParameters] at h
        rcases halk : alLookup name bindings with _ | repl <;>
          rw [halk] at h <;> simp only [Option.some.injEq] at h <;>
          subst h
        · exact okPair _ (by simp [occursIn, isMacroCallB])
        · exact okPair _
            (hb (name, repl) (alLookup_mem name repl bindings halk))
      case List elements =>
        simp only [substituteParameters] at h
        rcases hsl : substList n bindings elements with _ | rr
        · rw [hsl] at h; cases h
        · rw [hsl] at h
          simp only [Option.map_some', Option.some.injEq] at h
          subst h
          have hih := ihB bindings elements rr hb
            (occursIn_list_inner hnomc) hsl
          rcases rr with err | xs
          · exact errPair err (hih.1 err rfl)
          · exact okPair _ (noMC_list_intro (hih.2 xs rfl))
      case Quote inner =>
        simp only [substituteParameters, Option.some.injEq] at h
        subst h
        exact okPair _ hnomc
      case Quasiquote inner =>
        simp only [substituteParameters] at h
        rcases hs1 : substituteParameters n bindings inner with _ | rr
        · rw [hs1] at h; cases h
        · rw [hs1] at h
          have hih := ihA bindings inner rr hb
            (occursIn_quasiquote_inner hnomc) hs1
          rcases rr with err | substituted
          · simp only [Option.some.injEq] at h
            subst h
            exact errPair err (hih.1 err rfl)
          · simp only [Option.some.injEq] at h
            exact ihC bindings substituted r hb
              (hih.2 substituted rfl) h
      case Unquote inner =>
        simp only [substituteParameters] at h
        rcases hs1 : substituteParameters n bindings inner with _ | rr
        · rw [hs1] at h; cases h
        · rw [hs1] at h
          have hih := ihA bindings inner rr hb
            (occursIn_unquote_inner hnomc) hs1
          rcases rr with err | s
          · simp only [Option.some.injEq] at h
            subst h
            exact errPair err (hih.1 err rfl)
          · simp only [Option.some.injEq] at h
            subst h
            exact okPair _ (noMC_unquote_intro (hih.2 s rfl))
      case Splice inner =>
        simp only [substituteParameters] at h
        rcases hs1 : substituteParameters n bindings inner with _ | rr
        · rw [hs1] at h; cases h
        · rw [hs1] at h
          have hih := ihA bindings inner rr hb
            (occursIn_splice_inner hnomc) hs1
          rcases rr with err | s
          · simp only [Option.some.injEq] at h
            subst h
            exact errPair err (hih.1 err rfl)
          · simp only [Option.some.injEq] at h
            subst h
            exact okPair _ (noMC_splice_intro (hih.2 s rfl))
      all_goals
        simp only [substituteParameters, Option.some.injEq] at h
      all_goals
        subst h
      all_goals
        exact okPair _ hnomc
    · intro bindings es r hb hnomc h
      cases es with
      | nil =>
        simp only [substList, Option.some.injEq] at h
        subst h
        exact okPair _ rfl
      | cons e rest =>
        obtain ⟨he, hrest⟩ := occursInList_cons_false hnomc
        simp only [substList] at h
        rcases h1 : substituteParameters n bindings e with _ | r1
        · rw [h1] at h; cases h
        · rw [h1] at h
          have hih1 := ihA bindings e r1 hb he h1
          rcases r1 with err | x
          · simp only [Option.some.injEq] at h
            subst h
            exact errPair err (hih1.1 err rfl)
          · rcases h2 : substList n bindings rest with _ | r2
            · rw [h2] at h; cases h
            · rw [h2] at h
              have hih2 := ihB bindings rest r2 hb hrest h2
              rcases r2 with err | xs
              · simp only [Option.some.injEq] at h
                subst h
                exact errPair err (hih2.1 err rfl)
              · simp only [Option.some.injEq] at h
                subst h
                exact okPair _ (occursInList_cons_intro
                  (hih1.2 x rfl) (hih2.2 xs rfl))
    · intro bindings e r hb hnomc h
      cases e
      case Unquote inner =>
        simp only [expandQQWithSubstitution] at h
        exact ihA bindings inner r hb (occursIn_unquote_inner hnomc) h
      case List elements =>
        simp only [expandQQWithSubstitution] at h
        rcases hsl : qqSubstList n bindings elements with _ | rr
        · rw [hsl] at h; cases h
        · rw [hsl] at h
          simp only [Option.map_some', Option.some.injEq] at h
          subst h
          have hih := ihD bindings elements rr hb
            (occursIn_list_inner hnomc) hsl
          rcases rr with err | xs
          · exact errPair err (hih.1 err rfl)
          · exact okPair _ (noMC_list_intro (hih.2 xs rfl))
      all_goals
        simp only [expandQQWithSubstitution, Option.some.injEq] at h
      all_goals
        subst h
      all_goals
        exact okPair _ hnomc
    · intro bindings es r hb hnomc h
      cases es with
      | nil =>
        simp only [qqSubstList, Option.some.injEq] at h
        subst h
        exact okPair _ rfl
      | cons e rest =>
        obtain ⟨he, hrest⟩ := occursInList_cons_false hnomc
        by_cases hsp : ∃ sp, e = .Splice sp
        · obtain ⟨sp, rfl⟩ := hsp
          simp only [qqSubstList] at h
          rcases h1 : substituteParameters n bindings sp with _ | r1
          · rw [h1] at h; cases h
          · rw [h1] at h
            have hih1 := ihA bindings sp r1 hb
              (occursIn_splice_inner he) h1
            rcases r1 with err | substituted
            · simp only [Option.some.injEq] at h
              subst h
              exact errPair err (hih1.1 err rfl)
            · simp only [Option.some.injEq] at h
              by_cases hl : ∃ l, substituted = .List l
              · obtain ⟨l, rfl⟩ := hl
                simp only [Option.some.injEq] at h
                rcases h2 : qqSubstList n bindings rest with _ | r2
                · rw [h2] at h; cases h
                · rw [h2] at h
                  have hih2 := ihD bindings rest r2 hb hrest h2
                  rcases r2 with err | ys
                  · simp only [Option.some.injEq] at h
                    subst h
                    exact errPair err (hih2.1 err rfl)
                  · simp only [Option.some.injEq] at h
                    subst h
                    exact okPair _ (occursInList_append_false
                      (occursIn_list_inner (hih1.2 _ rfl))
                      (hih2.2 ys rfl))
              · have hnl : ∀ l, substituted ≠ .List l :=
                  fun l heq => hl ⟨l, heq⟩
                rw [qqSubstDispatch_nonlist n bindings rest
                  substituted hnl] at h
                simp only [Option.some.injEq] at h
                subst h
                exact errPair _ (by intro s; simp)
        · have hns : ∀ sp, e ≠ .Splice sp := fun sp heq => hsp ⟨sp, heq⟩
          rw [qqSubstList_cons_nonsplice n bindings e rest hns] at h
          rcases h1 : expandQQWithSubstitution n bindings e with _ | r1
          · rw [h1] at h; cases h
          · rw [h1] at h
            have hih1 := ihC bindings e r1 hb he h1
            rcases r1 with err | x
            · simp only [Option.some.injEq] at h
              subst h
              exact errPair err (hih1.1 err rfl)
            · rcases h2 : qqSubstList n bindings rest with _ | r2
              · rw [h2] at h; cases h
              · rw [h2] at h
                have hih2 := ihD bindings rest r2 hb hrest h2
                rcases r2 with err | ys
                · simp only [Option.some.injEq] at h
                  subst h
                  exact errPair err (hih2.1 err rfl)
                · simp only [Option.some.injEq] at h
                  subst h
                  exact okPair _ (occursInList_cons_intro
                    (hih1.2 x rfl) (hih2.2 ys rfl))

theorem notUM_of_ok {α : Type} (v : α) :
    ∀ err, (Except.ok v : Except MacroError α) = .error err →
      notUME err :=
  fun _ heq => (nomatch heq)

theorem notUM_of_err {α : Type} {err₀ : MacroError} (he : notUME err₀) :
    ∀ err, (Except.error err₀ : Except MacroError α) = .error err →
      notUME err :=
  fun _ heq => by injection heq with hh; exact hh ▸ he

theorem noUM_of_wrapList
    (res : Option ((Except MacroError (List LispExpr)) × MacroExpander))
    (r : Except MacroError LispExpr) (st' : MacroExpander)
    (h : (match res with
          | none => none
          | some (rr, st₂) => some (rr.map .List, st₂)) =
        some (r, st'))
    (hres : ∀ pair, res = some pair →
      (∀ err, pair.1 = .error err → notUME err) ∧
        regNoMC pair.2.macros) :
    (∀ err, r = .error err → notUME err) ∧ regNoMC st'.macros := by
  rcases hr : res with _ | ⟨rr, st₂⟩
  · rw [hr] at h; cases h
  · rw [hr] at h
    simp only [Option.some.injEq, Prod.mk.injEq] at h
    obtain ⟨h1, h2⟩ := h
    subst h1
    subst h2
    have hp := hres (rr, st₂) hr
    refine ⟨?_, hp.2⟩
    rcases rr with err₂ | xs
    · exact notUM_of_err (hp.1 err₂ rfl)
    · exact notUM_of_ok _

theorem noUM_of_exprWrap (g : LispExpr → LispExpr)
    (res : Option ((Except MacroError LispExpr) × MacroExpander))
    (r : Except MacroError LispExpr) (st' : MacroExpander)
    (h : (match res with
          | none => none
          | some (.error err, st₂) => some (.error err, st₂)
          | some (.ok x, st₂) => some (.ok (g x), st₂)) =
        some (r, st'))
    (hres : ∀ pair, res = some pair →
      (∀ err, pair.1 = .error err → notUME err) ∧
        regNoMC pair.2.macros) :
    (∀ err, r = .error err → notUME err) ∧ regNoMC st'.macros := by
  rcases hr : res with _ | ⟨rr, st₂⟩
  · rw [hr] at h; cases h
  · rw [hr] at h
    have hp := hres (rr, st₂) hr
    rcases rr with err₂ | x
    · simp only [Option.some.injEq, Prod.mk.injEq] at h
      obtain ⟨h1, h2⟩ := h
      subst h1
      subst h2
      exact ⟨hp.1, hp.2⟩
    · simp only [Option.some.injEq, Prod.mk.injEq] at h
      obtain ⟨h1, h2⟩ := h
      subst h1
      subst h2
      exact ⟨notUM_of_ok _, hp.2⟩

theorem noUndefinedAux : ∀ n : Nat,
    (∀ st e r st', occursIn isMacroCallB e = false →
      regNoMC st.macros →
      expandExpression n st e = some (r, st') →
      (∀ err, r = .error err → notUME err) ∧ regNoMC st'.macros) ∧
    (∀ st name args r st',
      (∃ d, alLookup name st.macros = some d) →
      occursInList isMacroCallB args = false →
      regNoMC st.macros →
      expandMacroCall n st name args = some (r, st') →
      (∀ err, r = .error err → notUME err) ∧ regNoMC st'.macros) ∧
    (∀ st es r st', occursInList isMacroCallB es = false →
      regNoMC st.macros →
      expandElements n st es = some (r, st') →
      (∀ err, r = .error err → notUME err) ∧ regNoMC st'.macros) ∧
    (∀ st e r st', occursIn isMacroCallB e = false →
      regNoMC st.macros →
      expandQuasiquote n st e = some (r, st') →
      (∀ err, r = .error err → notUME err) ∧ regNoMC st'.macros) ∧
    (∀ st es r st', occursInList isMacroCallB es = false →
      regNoMC st.macros →
      expandQQElements n st es = some (r, st') →
      (∀ err, r = .error err → notUME err) ∧ regNoMC st'.macros) := by
  intro n
  induction n with
  | zero =>
    refine ⟨?_, ?_, ?_, ?_, ?_⟩
    · intro st e r st' _ _ h; simp [expandExpression] at h
    · intro st name args r st' _ _ _ h; simp [expandMacroCall] at h
    · intro st es r st' _ _ h; simp [expandElements] at h
    · intro st e r st' _ _ h; simp [expandQuasiquote] at h
    · intro st es r st' _ _ h; simp [expandQQElements] at h
  | succ n ih =>
    obtain ⟨ihE, ihM, ihL, ihQ, ihQL⟩ := ih
    refine ⟨?_, ?_, ?_, ?_, ?_⟩
    · intro st e r st' hnomc hreg h
      cases e with
      | MacroDef name params body =>
        simp only [expandExpression, Option.some.injEq,
          Prod.mk.injEq] at h
        obtain ⟨h1, h2⟩ := h
        subst h1
        subst h2
        refine ⟨notUM_of_ok _, ?_⟩
        intro p hp
        rcases List.mem_cons.mp hp with hp | hp
        · rw [hp]
          exact occursIn_macrodef_body hnomc
        · exact hreg p hp
      | MacroCall name args =>
        rw [occursIn] at hnomc
        simp [isMacroCallB] at hnomc
      | List es =>
        cases es with
        | nil =>
          simp only [expandExpression, Option.some.injEq,
            Prod.mk.injEq] at h
          obtain ⟨h1, h2⟩ := h
          subst h1
          subst h2
          exact ⟨notUM_of_ok _, hreg⟩
        | cons e₀ rest =>
          cases e₀
          case Symbol name =>
            simp only [expandExpression] at h
            by_cases hc : alContains name st.macros
            · rw [if_pos hc] at h
              by_cases hd : st.expansionDepth > st.maxDepth
              · rw [if_pos hd] at h
                simp only [Option.some.injEq, Prod.mk.injEq] at h
                obtain ⟨h1, h2⟩ := h
                subst h1
                subst h2
                exact ⟨notUM_of_err (by intro s; simp), hreg⟩
              · rw [if_neg hd] at h
                rcases hmc : expandMacroCall n
                    { st with expansionDepth := st.expansionDepth + 1 }
                    name rest with _ | ⟨rr, st₂⟩
                · rw [hmc] at h; cases h
                · rw [hmc] at h
                  simp only [Option.some.injEq, Prod.mk.injEq] at h
                  obtain ⟨h1, h2⟩ := h
                  subst h1
                  have hargs : occursInList isMacroCallB rest = false :=
                    (occursInList_cons_false
                      (occursIn_list_inner hnomc)).2
                  obtain ⟨d, hd'⟩ := alContains_exists name st.macros hc
                  have hm := ihM
                    { st with expansionDepth := st.expansionDepth + 1 }
                    name rest rr st₂ ⟨d, hd'⟩ hargs hreg hmc
                  refine ⟨hm.1, ?_⟩
                  rw [← h2]
                  exact hm.2
            · rw [if_neg hc] at h
              exact noUM_of_wrapList _ r st' h
                (fun pair hp => ihL st _ pair.1 pair.2
                  (occursIn_list_inner hnomc) hreg hp)
          all_goals
            simp only [expandExpression] at h
          all_goals
            exact noUM_of_wrapList _ r st' h
              (fun pair hp => ihL st _ pair.1 pair.2
                (occursIn_list_inner hnomc) hreg hp)
      | Quote i =>
        simp only [expandExpression, Option.some.injEq,
          Prod.mk.injEq] at h
        obtain ⟨h1, h2⟩ := h
        subst h1
        subst h2
        exact ⟨notUM_of_ok _, hreg⟩
      | Quasiquote i =>
        simp only [expandExpression] at h
        exact noUM_of_exprWrap .Quasiquote (expandQuasiquote n st i)
          r st' h
          (fun pair hp => ihQ st i pair.1 pair.2
            (occursIn_quasiquote_inner hnomc) hreg hp)
      | Unquote i =>
        simp only [expandExpression] at h
        exact noUM_of_exprWrap .Unquote (expandExpression n st i)
          r st' h
          (fun pair hp => ihE st i pair.1 pair.2
            (occursIn_unquote_inner hnomc) hreg hp)
      | Splice i =>
        simp only [expandExpression] at h
        exact noUM_of_exprWrap .Splice (expandExpression n st i)
          r st' h
          (fun pair hp => ihE st i pair.1 pair.2
            (occursIn_splice_inner hnomc) hreg hp)
      | Number k =>
        simp only [expandExpression, Option.some.injEq,
          Prod.mk.injEq] at h
        obtain ⟨h1, h2⟩ := h
        subst h1
        subst h2
        exact ⟨notUM_of_ok _, hreg⟩
      | Symbol s =>
        simp only [expandExpression, Option.some.injEq,
          Prod.mk.injEq] at h
        obtain ⟨h1, h2⟩ := h
        subst h1
        subst h2
        exact ⟨notUM_of_ok _, hreg⟩
      | Str s =>
        simp only [expandExpression, Option.some.injEq,
          Prod.mk.injEq] at h
        obtain ⟨h1, h2⟩ := h
        subst h1
        subst h2
        exact ⟨notUM_of_ok _, hreg⟩
      | Boolean b =>
        simp only [expandExpression, Option.some.injEq,
          Prod.mk.injEq] at h
        obtain ⟨h1, h2⟩ := h
        subst h1
        subst h2
        exact ⟨notUM_of_ok _, hreg⟩
      | Nil =>
        simp only [expandExpression, Option.some.injEq,
          Prod.mk.injEq] at h
        obtain ⟨h1, h2⟩ := h
        subst h1
        subst h2
        exact ⟨notUM_of_ok _, hreg⟩
      | Gensym s =>
        simp only [expandExpression, Option.some.injEq,
          Prod.mk.injEq] at h
        obtain ⟨h1, h2⟩ := h
        subst h1
        subst h2
        exact ⟨notUM_of_ok _, hreg⟩
    · intro st name args r st' hlk hargs hreg h
      simp only [expandMacroCall] at h
      split at h
      · rename_i heqlk
        obtain ⟨d, hd⟩ := hlk
        rw [hd] at heqlk
        cases heqlk
      · rename_i macroDef heqlk
        split at h
        · rename_i merr heqmp
          simp only [Option.some.injEq, Prod.mk.injEq] at h
          obtain ⟨h1, h2⟩ := h
          subst h1
          subst h2
          exact ⟨notUM_of_err (matchParameters_not_undefined name
            macroDef.parameters args merr heqmp), hreg⟩
        · rename_i bindings heqmp
          have hbodynomc : occursIn isMacroCallB macroDef.body = false :=
            hreg (name, macroDef)
              (alLookup_mem name macroDef st.macros heqlk)
          have hbind := matchParameters_values name macroDef.parameters
            args bindings hargs heqmp
          have hren := (renameNoMCAux (efuel macroDef.body)).1
            macroDef.body
            ((buildHygieneMap st (collectIntroducedSymbols st
              macroDef.body (alKeys bindings))).1)
            le_rfl hbodynomc
          split at h
          · cases h
          · rename_i serr heqsb
            simp only [Option.some.injEq, Prod.mk.injEq] at h
            obtain ⟨h1, h2⟩ := h
            subst h1
            have hsub := (substNoMCAux n).1 _ _ _ hbind hren heqsb
            refine ⟨notUM_of_err (hsub.1 serr rfl), ?_⟩
            rw [← h2, buildHygieneMap_state]
            exact hreg
          · rename_i sb heqsb
            have hsub := (substNoMCAux n).1 _ _ _ hbind hren heqsb
            have hregbh : regNoMC ((buildHygieneMap st
                (collectIntroducedSymbols st macroDef.body
                  (alKeys bindings))).2).macros := by
              rw [buildHygieneMap_state]
              exact hreg
            exact ihE _ sb r st' (hsub.2 sb rfl) hregbh h
    · intro st es r st' hnomc hreg h
      cases es with
      | nil =>
        simp only [expandElements, Option.some.injEq,
          Prod.mk.injEq] at h
        obtain ⟨h1, h2⟩ := h
        subst h1
        subst h2
        exact ⟨notUM_of_ok _, hreg⟩
      | cons e rest =>
        obtain ⟨he, hrest⟩ := occursInList_cons_false hnomc
        simp only [expandElements] at h
        rcases hm₁ : expandExpression n st e with _ | ⟨r1, st₂⟩
        · rw [hm₁] at h; cases h
        · rw [hm₁] at h
          have hE1 := ihE st e r1 st₂ he hreg hm₁
          rcases r1 with err | x
          · simp only [Option.some.injEq, Prod.mk.injEq] at h
            obtain ⟨h1, h2⟩ := h
            subst h1
            subst h2
            exact ⟨notUM_of_err (hE1.1 err rfl), hE1.2⟩
          · simp only [Option.some.injEq] at h
            rcases hm₂ : expandElements n st₂ rest with _ | ⟨r2, st₃⟩
            · rw [hm₂] at h; cases h
            · rw [hm₂] at h
              have hE2 := ihL st₂ rest r2 st₃ hrest hE1.2 hm₂
              rcases r2 with err₂ | xs
              · simp only [Option.some.injEq, Prod.mk.injEq] at h
                obtain ⟨h1, h2⟩ := h
                subst h1
                subst h2
                exact ⟨notUM_of_err (hE2.1 err₂ rfl), hE2.2⟩
              · cases x <;>
                  (simp only [Option.some.injEq, Prod.mk.injEq] at h;
                   obtain ⟨h1, h2⟩ := h; subst h1; subst h2;
                   exact ⟨notUM_of_ok _, hE2.2⟩)
    · intro st e r st' hnomc hreg h
      cases e with
      | Unquote i =>
        simp only [expandQuasiquote] at h
        exact ihE st i r st' (occursIn_unquote_inner hnomc) hreg h
      | List es =>
        simp only [expandQuasiquote] at h
        exact noUM_of_wrapList _ r st' h
          (fun pair hp => ihQL st es pair.1 pair.2
            (occursIn_list_inner hnomc) hreg hp)
      | Number k =>
        simp only [expandQuasiquote, Option.some.injEq,
          Prod.mk.injEq] at h
        obtain ⟨h1, h2⟩ := h
        subst h1
        subst h2
        exact ⟨notUM_of_ok _, hreg⟩
      | Symbol s =>
        simp only [expandQuasiquote, Option.some.injEq,
          Prod.mk.injEq] at h
        obtain ⟨h1, h2⟩ := h
        subst h1
        subst h2
        exact ⟨notUM_of_ok _, hreg⟩
      | Str s =>
        simp only [expandQuasiquote, Option.some.injEq,
          Prod.mk.injEq] at h
        obtain ⟨h1, h2⟩ := h
        subst h1
        subst h2
        exact ⟨notUM_of_ok _, hreg⟩
      | Boolean b =>
        simp only [expandQuasiquote, Option.some.injEq,
          Prod.mk.injEq] at h
        obtain ⟨h1, h2⟩ := h
        subst h1
        subst h2
        exact ⟨notUM_of_ok _, hreg⟩
      | Nil =>
        simp only [expandQuasiquote, Option.some.injEq,
          Prod.mk.injEq] at h
        obtain ⟨h1, h2⟩ := h
        subst h1
        subst h2
        exact ⟨notUM_of_ok _, hreg⟩
      | Gensym s =>
        simp only [expandQuasiquote, Option.some.injEq,
          Prod.mk.injEq] at h
        obtain ⟨h1, h2⟩ := h
        subst h1
        subst h2
        exact ⟨notUM_of_ok _, hreg⟩
      | Quote i =>
        simp only [expandQuasiquote, Option.some.injEq,
          Prod.mk.injEq] at h
        obtain ⟨h1, h2⟩ := h
        subst h1
        subst h2
        exact ⟨notUM_of_ok _, hreg⟩
      | Quasiquote i =>
        simp only [expandQuasiquote, Option.some.injEq,
          Prod.mk.injEq] at h
        obtain ⟨h1, h2⟩ := h
        subst h1
        subst h2
        exact ⟨notUM_of_ok _, hreg⟩
      | Splice i =>
        simp only [expandQuasiquote, Option.some.injEq,
          Prod.mk.injEq] at h
        obtain ⟨h1, h2⟩ := h
        subst h1
        subst h2
        exact ⟨notUM_of_ok _, hreg⟩
      | MacroDef name params body =>
        simp only [expandQuasiquote, Option.some.injEq,
          Prod.mk.injEq] at h
        obtain ⟨h1, h2⟩ := h
        subst h1
        subst h2
        exact ⟨notUM_of_ok _, hreg⟩
      | MacroCall name args =>
        simp only [expandQuasiquote, Option.some.injEq,
          Prod.mk.injEq] at h
        obtain ⟨h1, h2⟩ := h
        subst h1
        subst h2
        exact ⟨notUM_of_ok _, hreg⟩
    · intro st es r st' hnomc hreg h
      cases es with
      | nil =>
        simp only [expandQQElements, Option.some.injEq,
          Prod.mk.injEq] at h
        obtain ⟨h1, h2⟩ := h
        subst h1
        subst h2
        exact ⟨notUM_of_ok _, hreg⟩
      | cons e rest =>
        obtain ⟨he, hrest⟩ := occursInList_cons_false hnomc
        by_cases hsp : ∃ sp, e = .Splice sp
        · obtain ⟨sp, rfl⟩ := hsp
          simp only [expandQQElements] at h
          rcases hm₁ : expandExpression n st sp with _ | ⟨r1, st₂⟩
          · rw [hm₁] at h; cases h
          · rw [hm₁] at h
            have hE1 := ihE st sp r1 st₂ (occursIn_splice_inner he)
              hreg hm₁
            rcases r1 with err | expanded
            · simp only [Option.some.injEq, Prod.mk.injEq] at h
              obtain ⟨h1, h2⟩ := h
              subst h1
              subst h2
              exact ⟨notUM_of_err (hE1.1 err rfl), hE1.2⟩
            · simp only [Option.some.injEq] at h
              by_cases hl : ∃ l, expanded = .List l
              · obtain ⟨l, rfl⟩ := hl
                simp only [Option.some.injEq] at h
                rcases hm₂ : expandQQElements n st₂ rest with
                    _ | ⟨r2, st₃⟩
                · rw [hm₂] at h; cases h
                · rw [hm₂] at h
                  have hE2 := ihQL st₂ rest r2 st₃ hrest hE1.2 hm₂
                  rcases r2 with err₂ | ys
                  · simp only [Option.some.injEq, Prod.mk.injEq] at h
                    obtain ⟨h1, h2⟩ := h
                    subst h1
                    subst h2
                    exact ⟨notUM_of_err (hE2.1 err₂ rfl), hE2.2⟩
                  · simp only [Option.some.injEq, Prod.mk.injEq] at h
                    obtain ⟨h1, h2⟩ := h
                    subst h1
                    subst h2
                    exact ⟨notUM_of_ok _, hE2.2⟩
              · have hnl : ∀ l, expanded ≠ .List l :=
                  fun l heq => hl ⟨l, heq⟩
                rw [qqSpliceDispatch_nonlist n st₂ rest expanded
                  hnl] at h
                simp only [Option.some.injEq, Prod.mk.injEq] at h
                obtain ⟨h1, h2⟩ := h
                subst h1
                subst h2
                exact ⟨notUM_of_err (by intro s; simp), hE1.2⟩
        · have hns : ∀ sp, e ≠ .Splice sp := fun sp heq => hsp ⟨sp, heq⟩
          rw [expandQQElements_cons_nonsplice n st e rest hns] at h
          rcases hm₁ : expandQuasiquote n st e with _ | ⟨r1, st₂⟩
          · rw [hm₁] at h; cases h
          · rw [hm₁] at h
            have hQ1 := ihQ st e r1 st₂ he hreg hm₁
            rcases r1 with err | x
            · simp only [Option.some.injEq, Prod.mk.injEq] at h
              obtain ⟨h1, h2⟩ := h
              subst h1
              subst h2
              exact ⟨notUM_of_err (hQ1.1 err rfl), hQ1.2⟩
            · simp only [Option.some.injEq] at h
              rcases hm₂ : expandQQElements n st₂ rest with
                  _ | ⟨r2, st₃⟩
              · rw [hm₂] at h; cases h
              · rw [hm₂] at h
                have hE2 := ihQL st₂ rest r2 st₃ hrest hQ1.2 hm₂
                rcases r2 with err₂ | ys
                · simp only [Option.some.injEq, Prod.mk.injEq] at h
                  obtain ⟨h1, h2⟩ := h
                  subst h1
                  subst h2
                  exact ⟨notUM_of_err (hE2.1 err₂ rfl), hE2.2⟩
                · simp only [Option.some.injEq, Prod.mk.injEq] at h
                  obtain ⟨h1, h2⟩ := h
                  subst h1
                  subst h2
                  exact ⟨notUM_of_ok _, hE2.2⟩

theorem expandMacroCall_unregistered (n : Nat) (st : MacroExpander)
    (name : String) (args : List LispExpr)
    (h : alLookup name st.macros = none) :
    expandMacroCall (n + 1) st name args =
      some (.error (.UndefinedMacroName name), st) := by
  rw [expandMacroCall, h]

theorem macroCallVariant_undefined (n : Nat) (st : MacroExpander)
    (name : String) (args : List LispExpr)
    (hlk : alContains name st.macros = false)
    (hdep : ¬ st.expansionDepth > st.maxDepth) :
    expandExpression (n + 2) st (.MacroCall name args) =
      some (.error (.UndefinedMacroName name), st) := by
  have hnone : alLookup name st.macros = none := by
    rcases halk : alLookup name st.macros with _ | v
    · rfl
    · rw [alContains, halk] at hlk
      simp at hlk
  have hmc : expandMacroCall (n + 1)
      { st with expansionDepth := st.expansionDepth + 1 } name args =
      some (.error (.UndefinedMacroName name),
        { st with expansionDepth := st.expansionDepth + 1 }) :=
    expandMacroCall_unregistered n _ name args hnone
  simp only [expandExpression]
  rw [if_neg hdep, hmc]
  rfl

theorem expandList_unregistered_succ (n : Nat) (st : MacroExpander)
    (name : String) (rest : List LispExpr)
    (hc : alContains name st.macros = false) :
    expandExpression (n + 1) st (.List (.Symbol name :: rest)) =
      (match expandElements n st (.Symbol name :: rest) with
       | none => none
       | some (r, st') => some (r.map .List, st')) := by
  simp only [expandExpression, hc, Bool.false_eq_true, if_false]

theorem expandElements_symbol_head (n : Nat) (st : MacroExpander)
    (name : String) (rest : List LispExpr) :
    expandElements (n + 2) st (.Symbol name :: rest) =
      (match expandElements (n + 1) st rest with
       | none => none
       | some (.error err, st') => some (.error err, st')
       | some (.ok xs, st') =>
         some (.ok (.Symbol name :: xs), st')) := rfl

/-- Claim C1, counterexample: a `MacroCall` variant naming an
unregistered macro does *not* survive as a regular call — expansion
fails with `UndefinedMacro`.  (Only the `List`-spelled form is left
alone.) -/
theorem C1_counterexample :
    resultOf (expandAll 5 MacroExpander.new (.MacroCall "foo" [])) =
      some (.error (.UndefinedMacroName "foo")) ∧
    (some (.error (.UndefinedMacroName "foo")) :
        Option (Except MacroError LispExpr)) ≠
      some (.ok (.MacroCall "foo" [])) :=
  ⟨rfl, by simp⟩

/-- Claim C1 (amended): the two spellings behave differently.  (1) A
`MacroCall` variant naming an unregistered macro makes `expand_all`
fail with `UndefinedMacro` carrying that name.  (2) A `List` whose head
`Symbol` is unregistered is treated as a regular list: the head symbol
is kept and only the children are expanded (by the element loop, which
also prunes `Nil` results), and any error comes from the children.
(3) The claim's intent holds for `MacroCall`-free programs: if the term
contains no `MacroCall` variant and no registered macro body contains
one, then no completed expansion — at any fuel, success or failure —
ever produces an `UndefinedMacro` error, because the `List` path checks
registration before treating a head as a macro call. -/
theorem C1_amended_undefined_names :
    (∀ n st name args,
      alContains name st.macros = false →
      resultOf (expandAll (n + 2) st (.MacroCall name args)) =
        some (.error (.UndefinedMacroName name))) ∧
    (∀ n st name rest,
      alContains name st.macros = false →
      expandExpression (n + 3) st (.List (.Symbol name :: rest)) =
        (match expandElements (n + 1) st rest with
         | none => none
         | some (.error err, st') => some (.error err, st')
         | some (.ok xs, st') =>
           some (.ok (.List (.Symbol name :: xs)), st'))) ∧
    (∀ n st e r st',
      occursIn isMacroCallB e = false →
      regNoMC st.macros →
      expandExpression n st e = some (r, st') →
      ∀ s, r ≠ .error (.UndefinedMacroName s)) := by
  refine ⟨?_, ?_, ?_⟩
  · intro n st name args hc
    rw [expandAll, macroCallVariant_undefined n
      { st with expansionDepth := 0 } name args hc (Nat.not_lt_zero _)]
    rfl
  · intro n st name rest hc
    rw [expandList_unregistered_succ (n + 2) st name rest hc]
    rw [expandElements_symbol_head n st name rest]
    rcases hx : expandElements (n + 1) st rest with _ | ⟨r, st''⟩
    · rfl
    · rcases r with err | xs <;> rfl
  · intro n st e r st' hnomc hreg h s heq
    exact absurd rfl
      (((noUndefinedAux n).1 st e r st' hnomc hreg h).1 _ heq s)

/-- Witness for C1 (amended): the unregistered `MacroCall "foo"` errors;
the unregistered list form `(foo)` is returned as a regular list; the
`MacroCall`-free program `(foo 1)` expands on the empty registry to a
non-`UndefinedMacro` result. -/
theorem C1_amended_undefined_names_witness :
    resultOf (expandAll 5 MacroExpander.new (.MacroCall "foo" [])) =
      some (.error (.UndefinedMacroName "foo")) ∧
    expandExpression 4 MacroExpander.new (.List [.Symbol "foo"]) =
      some (.ok (.List [.Symbol "foo"]), MacroExpander.new) ∧
    ∀ s, (Except.ok (LispExpr.List [.Symbol "foo", .Number 1]) :
        Except MacroError LispExpr) ≠ .error (.UndefinedMacroName s) :=
  ⟨C1_amended_undefined_names.1 3 MacroExpander.new "foo" [] rfl,
   (C1_amended_undefined_names.2.1 1 MacroExpander.new "foo" []
     rfl).trans rfl,
   C1_amended_undefined_names.2.2 5 MacroExpander.new
     (.List [.Symbol "foo", .Number 1])
     (.ok (.List [.Symbol "foo", .Number 1])) MacroExpander.new rfl
     (fun p hp => absurd hp (List.not_mem_nil p)) rfl⟩

end RustyLisp
